import Mathlib

/-!
Verification development for the S1AP flow-correlation and time-window
filtering tools (src/group_s1ap_flows.py, src/filter_flows_by_time.py).

The Python sources are shallowly embedded: each relevant Python function is
translated into an executable Lean definition over explicit state; dicts with
insertion order become association lists; `None`-able values become `Option`;
float timestamps (only ever compared, never combined arithmetically) are
modelled by rationals.
-/

namespace S1AP

/-- One parsed CSV row as consumed by `group_flows`: the frame number and the
two S1AP identifiers, each already passed through `_to_int` (so `none` models a
missing or malformed field). -/
structure Record where
  frame : Option Int
  enb : Option Int
  mme : Option Int
deriving DecidableEq

/-- The supplemental per-frame identifier map built by `build_frame_id_map`:
`frame.number -> (enb_id, mme_id)`; `none` models `frame not in frame_ids`. -/
abbrev FrameIds := Int → Option (Option Int × Option Int)

/-- Lines 202-207 of `group_s1ap_flows.py`: if either identifier is missing and
the frame is in the prebuilt map, fill only the missing one(s) from the map. -/
def fillIds (fids : FrameIds) (n : Int) (enb mme : Option Int) :
    Option Int × Option Int :=
  if (enb.isNone || mme.isNone) && (fids n).isSome then
    match (fids n).getD (none, none) with
    | (e2, m2) => (enb <|> e2, mme <|> m2)
  else (enb, mme)

/-- The identifiers a record carries after the supplemental fill (a record
whose frame number is missing is skipped before the fill, so it carries
nothing). -/
def filledIds (fids : FrameIds) (r : Record) : Option Int × Option Int :=
  match r.frame with
  | some n => fillIds fids n r.enb r.mme
  | none => (none, none)

/-- First-match association-list lookup, modelling Python dict access. -/
def alookup {α β : Type} [DecidableEq α] : List (α × β) → α → Option β
  | [], _ => none
  | (k, v) :: rest, a => if k = a then some v else alookup rest a

/-- Python `defaultdict(list)` append: extend the list stored at `k` (creating the
entry at the end, preserving insertion order, when absent). -/
def upsertAppend {α γ : Type} [DecidableEq α] :
    List (α × List γ) → α → List γ → List (α × List γ)
  | [], k, ns => [(k, ns)]
  | (k', v) :: rest, k, ns =>
      if k' = k then (k', v ++ ns) :: rest
      else (k', v) :: upsertAppend rest k ns

/-- Python `dict.pop` (keep every entry whose key differs from `e`, in order). -/
def removeKey {α β : Type} [DecidableEq α] : List (α × β) → α → List (α × β)
  | [], _ => []
  | (k, v) :: rest, e =>
      if k = e then removeKey rest e else (k, v) :: removeKey rest e

/-- The mutable state of the single pass in `group_flows`: `flows`,
`enb_pending` and `enb_to_pair`, all insertion-ordered dicts. -/
structure GState where
  flows : List ((Int × Int) × List Int)
  pending : List (Int × List Int)
  bind : List (Int × (Int × Int))
deriving DecidableEq

/-- The bucket `enb_pending[e]` viewed as a (possibly empty) list. -/
def pendingList (st : GState) (e : Int) : List Int :=
  (alookup st.pending e).getD []

/-- The list `flows[k]` viewed as a (possibly empty) list. -/
def flowList (st : GState) (k : Int × Int) : List Int :=
  (alookup st.flows k).getD []

/-- One iteration of the `for r in rows` loop of `group_flows`
(lines 194-228 of `group_s1ap_flows.py`). -/
def step (fids : FrameIds) (st : GState) (r : Record) : GState :=
  match r.frame, filledIds fids r with
  | some n, (some e, some m) =>
      match alookup st.bind e with
      | none =>
          { flows := upsertAppend st.flows (e, m) (pendingList st e ++ [n])
            pending := removeKey st.pending e
            bind := st.bind ++ [(e, (e, m))] }
      | some k => { st with flows := upsertAppend st.flows k [n] }
  | some n, (some e, none) =>
      match alookup st.bind e with
      | some k => { st with flows := upsertAppend st.flows k [n] }
      | none => { st with pending := upsertAppend st.pending e [n] }
  | _, _ => st

/-- The whole forward pass of `group_flows`, from the empty dicts. -/
def runGroup (fids : FrameIds) (records : List Record) : GState :=
  records.foldl (step fids) ⟨[], [], []⟩

/-- Insert `n` into a strictly increasing list, keeping it strictly
increasing (duplicates collapse). -/
def insertUnique (n : Int) : List Int → List Int
  | [] => [n]
  | m :: rest =>
      if n < m then n :: m :: rest
      else if n = m then m :: rest
      else m :: insertUnique n rest

/-- Python `sorted(set(ns))` (line 232 of `group_s1ap_flows.py`): the strictly
increasing enumeration of the distinct elements of `ns`. -/
def sortedDedup (ns : List Int) : List Int :=
  ns.foldr insertUnique []

/-- The function `group_flows` (lines 187-233 of `group_s1ap_flows.py`): run the pass, then
deduplicate and sort the frame list of every flow. -/
def groupFlows (records : List Record) (fids : FrameIds) :
    List ((Int × Int) × List Int) :=
  (runGroup fids records).flows.map (fun p => (p.1, sortedDedup p.2))

/-- The key the correlator would bind a primary identifier `e` to: the pair
carried by the first record that carries `e` together with some secondary
identifier (after supplemental fill). -/
def firstKey (fids : FrameIds) (rs : List Record) (e : Int) :
    Option (Int × Int) :=
  rs.findSome? (fun r =>
    match filledIds fids r with
    | (some e', some m) => if e' = e then some (e', m) else none
    | _ => none)

example :
    groupFlows [⟨some 1, some 5, some 9⟩, ⟨some 2, some 5, none⟩,
      ⟨some 3, some 5, some 77⟩] (fun _ => none) = [((5, 9), [1, 2, 3])] := by
  decide

example :
    groupFlows [⟨some 1, some 3, none⟩, ⟨some 2, some 3, some 8⟩]
      (fun _ => none) = [((3, 8), [1, 2])] := by
  decide

section AssocLemmas

variable {α β γ : Type} [DecidableEq α]

lemma alookup_eq_none_iff (m : List (α × β)) (a : α) :
    alookup m a = none ↔ a ∉ m.map Prod.fst := by
  induction m with
  | nil => simp [alookup]
  | cons p rest ih =>
      obtain ⟨k, v⟩ := p
      simp only [List.map_cons, List.mem_cons]
      by_cases h : k = a
      · subst h
        simp [alookup]
      · have h1 : ¬ a = k := fun hh => h hh.symm
        simp [alookup, h, h1, ih]

lemma mem_of_alookup_eq_some {m : List (α × β)} {a : α} {v : β}
    (h : alookup m a = some v) : (a, v) ∈ m := by
  induction m with
  | nil => simp [alookup] at h
  | cons p rest ih =>
      obtain ⟨k, w⟩ := p
      by_cases hk : k = a
      · subst hk
        simp [alookup] at h
        simp [h]
      · simp [alookup, hk] at h
        exact List.mem_cons_of_mem _ (ih h)

lemma alookup_eq_some_of_mem_nodup {m : List (α × β)}
    (hnd : (m.map Prod.fst).Nodup) {a : α} {v : β} (h : (a, v) ∈ m) :
    alookup m a = some v := by
  induction m with
  | nil => simp at h
  | cons p rest ih =>
      obtain ⟨k, w⟩ := p
      simp only [List.map_cons, List.nodup_cons] at hnd
      rcases List.mem_cons.mp h with h1 | h1
      · cases h1
        simp [alookup]
      · have hka : k ≠ a := by
          intro hk
          subst hk
          exact hnd.1 (List.mem_map.mpr ⟨(k, v), h1, rfl⟩)
        simp [alookup, hka, ih hnd.2 h1]

lemma alookup_append (m₁ m₂ : List (α × β)) (a : α) :
    alookup (m₁ ++ m₂) a = (alookup m₁ a).or (alookup m₂ a) := by
  induction m₁ with
  | nil => simp [alookup]
  | cons p rest ih =>
      obtain ⟨k, v⟩ := p
      by_cases h : k = a <;> simp [alookup, h, ih]

lemma alookup_upsertAppend_self (m : List (α × List γ)) (k : α)
    (ns : List γ) :
    alookup (upsertAppend m k ns) k = some ((alookup m k).getD [] ++ ns) := by
  induction m with
  | nil => simp [alookup, upsertAppend]
  | cons p rest ih =>
      obtain ⟨k', v⟩ := p
      by_cases h : k' = k <;> simp [alookup, upsertAppend, h, ih]

lemma alookup_upsertAppend_ne (m : List (α × List γ)) {k a : α}
    (h : a ≠ k) (ns : List γ) :
    alookup (upsertAppend m k ns) a = alookup m a := by
  induction m with
  | nil =>
      have h1 : ¬ k = a := fun hh => h hh.symm
      simp [alookup, upsertAppend, h1]
  | cons p rest ih =>
      obtain ⟨k', v⟩ := p
      by_cases h1 : k' = k
      · subst h1
        have h2 : ¬ k' = a := fun hh => h hh.symm
        simp [alookup, upsertAppend, h2]
      · by_cases h2 : k' = a <;> simp [alookup, upsertAppend, h, h1, h2, ih]

lemma keys_upsertAppend (m : List (α × List γ)) (k : α) (ns : List γ) :
    (upsertAppend m k ns).map Prod.fst =
      if k ∈ m.map Prod.fst then m.map Prod.fst
      else m.map Prod.fst ++ [k] := by
  induction m with
  | nil => simp [upsertAppend]
  | cons p rest ih =>
      obtain ⟨k', v⟩ := p
      by_cases h : k' = k
      · subst h
        simp [upsertAppend]
      · have hne : k ≠ k' := fun hh => h hh.symm
        by_cases hmem : k ∈ rest.map Prod.fst <;>
          simp [upsertAppend, h, ih, hmem, hne]

lemma nodup_keys_upsertAppend {m : List (α × List γ)}
    (hnd : (m.map Prod.fst).Nodup) (k : α) (ns : List γ) :
    ((upsertAppend m k ns).map Prod.fst).Nodup := by
  rw [keys_upsertAppend]
  by_cases hmem : k ∈ m.map Prod.fst
  · simpa [hmem] using hnd
  · simp only [hmem, if_false]
    refine List.Nodup.append hnd (List.nodup_singleton k) ?_
    intro a ha hb
    simp at hb
    subst hb
    exact hmem ha

lemma alookup_removeKey_ne {m : List (α × β)} {e a : α} (h : a ≠ e) :
    alookup (removeKey m e) a = alookup m a := by
  induction m with
  | nil => simp [alookup, removeKey]
  | cons p rest ih =>
      obtain ⟨k, v⟩ := p
      by_cases hk : k = e
      · subst hk
        have hka : ¬ k = a := fun hh => h hh.symm
        simp [removeKey, alookup, hka, ih]
      · by_cases h2 : k = a <;> simp [removeKey, alookup, h, hk, h2, ih]

lemma alookup_removeKey_self (m : List (α × β)) (e : α) :
    alookup (removeKey m e) e = none := by
  induction m with
  | nil => simp [alookup, removeKey]
  | cons p rest ih =>
      obtain ⟨k, v⟩ := p
      by_cases hk : k = e <;> simp [removeKey, alookup, hk, ih]

lemma keys_removeKey_sublist (m : List (α × β)) (e : α) :
    ((removeKey m e).map Prod.fst).Sublist (m.map Prod.fst) := by
  induction m with
  | nil => simp [removeKey]
  | cons p rest ih =>
      obtain ⟨k, v⟩ := p
      by_cases hk : k = e
      · simp only [removeKey, hk, if_true, List.map_cons]
        exact ih.trans (List.sublist_cons_self _ _)
      · simp only [removeKey, hk, if_false, List.map_cons]
        exact ih.cons₂ _

lemma nodup_keys_removeKey {m : List (α × β)}
    (hnd : (m.map Prod.fst).Nodup) (e : α) :
    ((removeKey m e).map Prod.fst).Nodup :=
  hnd.sublist (keys_removeKey_sublist m e)

lemma removeKey_eq_self_of_not_mem {m : List (α × β)} {e : α}
    (h : e ∉ m.map Prod.fst) : removeKey m e = m := by
  induction m with
  | nil => rfl
  | cons p rest ih =>
      obtain ⟨k, v⟩ := p
      simp only [List.map_cons, List.mem_cons] at h
      push_neg at h
      have hk : ¬ k = e := fun hh => h.1 hh.symm
      simp [removeKey, hk, ih h.2]

end AssocLemmas

/-- Total number of occurrences of `n` across a family of lists. -/
def countIn (ls : List (List Int)) (n : Int) : Nat :=
  (ls.map (fun l => l.count n)).sum

section CountLemmas

variable {α : Type} [DecidableEq α]

lemma countIn_upsertAppend (m : List (α × List Int)) (k : α)
    (ns : List Int) (n : Int) :
    countIn ((upsertAppend m k ns).map Prod.snd) n =
      countIn (m.map Prod.snd) n + ns.count n := by
  induction m with
  | nil => simp [upsertAppend, countIn]
  | cons p rest ih =>
      obtain ⟨k', v⟩ := p
      by_cases h : k' = k
      · simp only [upsertAppend, h, if_true, List.map_cons, countIn,
          List.count_append, List.sum_cons]
        omega
      · simp only [upsertAppend, h, if_false, List.map_cons, countIn,
          List.sum_cons] at ih ⊢
        omega

lemma countIn_removeKey {m : List (α × List Int)}
    (hnd : (m.map Prod.fst).Nodup) (e : α) (n : Int) :
    countIn (m.map Prod.snd) n =
      countIn ((removeKey m e).map Prod.snd) n +
        ((alookup m e).getD []).count n := by
  induction m with
  | nil => simp [removeKey, countIn, alookup]
  | cons p rest ih =>
      obtain ⟨k, v⟩ := p
      simp only [List.map_cons, List.nodup_cons] at hnd
      by_cases h : k = e
      · subst h
        have hnot : k ∉ rest.map Prod.fst := hnd.1
        have : removeKey rest k = rest := removeKey_eq_self_of_not_mem hnot
        simp [removeKey, alookup, this, countIn, Nat.add_comm]
      · simp only [removeKey, h, if_false, List.map_cons, countIn,
          List.sum_cons, alookup]
        have := ih hnd.2
        simp only [countIn] at this
        omega

lemma count_le_countIn {m : List (α × List Int)} {k : α} {v : List Int}
    (h : (k, v) ∈ m) (n : Int) :
    v.count n ≤ countIn (m.map Prod.snd) n := by
  induction m with
  | nil => simp at h
  | cons p rest ih =>
      rcases List.mem_cons.mp h with h1 | h1
      · subst h1
        simp only [List.map_cons, countIn, List.sum_cons]
        omega
      · obtain ⟨k', v'⟩ := p
        simp only [List.map_cons, countIn, List.sum_cons]
        have := ih h1
        simp only [countIn] at this
        omega

lemma two_counts_le_countIn {m : List (α × List Int)} {k k' : α}
    {v v' : List Int} (h : (k, v) ∈ m) (h' : (k', v') ∈ m) (hne : k ≠ k')
    (n : Int) :
    v.count n + v'.count n ≤ countIn (m.map Prod.snd) n := by
  induction m with
  | nil => simp at h
  | cons p rest ih =>
      rcases List.mem_cons.mp h with h1 | h1
      · subst h1
        have h2 : (k', v') ∈ rest := by
          rcases List.mem_cons.mp h' with h3 | h3
          · cases h3
            exact absurd rfl hne
          · exact h3
        simp only [List.map_cons, countIn, List.sum_cons]
        have := count_le_countIn h2 n
        simp only [countIn] at this
        omega
      · rcases List.mem_cons.mp h' with h3 | h3
        · subst h3
          simp only [List.map_cons, countIn, List.sum_cons]
          have := count_le_countIn h1 n
          simp only [countIn] at this
          omega
        · obtain ⟨a, w⟩ := p
          simp only [List.map_cons, countIn, List.sum_cons]
          have := ih h1 h3
          simp only [countIn] at this
          omega

end CountLemmas

section FirstKeyLemmas

lemma firstKey_append_single (fids : FrameIds) (rs : List Record)
    (r : Record) (e : Int) :
    firstKey fids (rs ++ [r]) e =
      (firstKey fids rs e).or (firstKey fids [r] e) := by
  simp [firstKey, List.findSome?_append]

lemma firstKey_fst {fids : FrameIds} {rs : List Record} {e : Int}
    {k : Int × Int} (h : firstKey fids rs e = some k) : k.1 = e := by
  obtain ⟨r, _, hr⟩ := List.exists_of_findSome?_eq_some h
  revert hr
  match hm : filledIds fids r with
  | (some e', some m) =>
      intro hr
      by_cases he : e' = e <;> simp [he] at hr
      cases hr
      simpa using he
  | (some e', none) => intro hr; simp at hr
  | (none, _) => intro hr; simp at hr

lemma firstKey_spec {fids : FrameIds} {rs : List Record} {e : Int}
    {k : Int × Int} (h : firstKey fids rs e = some k) :
    ∃ r ∈ rs, filledIds fids r = (some e, some k.2) := by
  obtain ⟨r, hmem, hr⟩ := List.exists_of_findSome?_eq_some h
  refine ⟨r, hmem, ?_⟩
  revert hr
  match hm : filledIds fids r with
  | (some e', some m) =>
      intro hr
      by_cases he : e' = e <;> simp [he] at hr
      cases hr
      simp [he]
  | (some e', none) => intro hr; simp at hr
  | (none, _) => intro hr; simp at hr

lemma firstKey_single (fids : FrameIds) (r : Record) (e : Int) :
    firstKey fids [r] e =
      (match filledIds fids r with
       | (some e', some m) => if e' = e then some (e', m) else none
       | _ => none) := by
  simp only [firstKey, List.findSome?]
  match filledIds fids r with
  | (some e', some m) =>
      by_cases he : e' = e <;> simp [he, List.findSome?]
  | (some e', none) => simp [List.findSome?]
  | (none, o) => simp [List.findSome?]

end FirstKeyLemmas

lemma filledIds_of_frame_none {fids : FrameIds} {r : Record}
    (h : r.frame = none) : filledIds fids r = (none, none) := by
  simp [filledIds, h]

section StepEquations

variable {fids : FrameIds} {st : GState} {r : Record}

lemma step_skip_of_frame_none (h : r.frame = none) : step fids st r = st := by
  simp [step, h, filledIds_of_frame_none h]

lemma step_skip_of_no_enb {n : Int} (hfr : r.frame = some n)
    (hfi : (filledIds fids r).1 = none) : step fids st r = st := by
  rcases hm : filledIds fids r with ⟨o1, o2⟩
  rw [hm] at hfi
  simp only at hfi
  subst hfi
  simp [step, hfr, hm]

lemma step_both_unbound {n e m : Int} (hfr : r.frame = some n)
    (hfi : filledIds fids r = (some e, some m))
    (hb : alookup st.bind e = none) :
    step fids st r =
      ⟨upsertAppend st.flows (e, m) (pendingList st e ++ [n]),
       removeKey st.pending e, st.bind ++ [(e, (e, m))]⟩ := by
  simp [step, hfr, hfi, hb]

lemma step_both_bound {n e m : Int} {k : Int × Int} (hfr : r.frame = some n)
    (hfi : filledIds fids r = (some e, some m))
    (hb : alookup st.bind e = some k) :
    step fids st r = { st with flows := upsertAppend st.flows k [n] } := by
  simp [step, hfr, hfi, hb]

lemma step_enb_bound {n e : Int} {k : Int × Int} (hfr : r.frame = some n)
    (hfi : filledIds fids r = (some e, none))
    (hb : alookup st.bind e = some k) :
    step fids st r = { st with flows := upsertAppend st.flows k [n] } := by
  simp [step, hfr, hfi, hb]

lemma step_enb_unbound {n e : Int} (hfr : r.frame = some n)
    (hfi : filledIds fids r = (some e, none))
    (hb : alookup st.bind e = none) :
    step fids st r =
      { st with pending := upsertAppend st.pending e [n] } := by
  simp [step, hfr, hfi, hb]

end StepEquations

/-- Invariant tying the pass state of `group_flows` to the list `rs` of
records processed so far. -/
structure Inv (fids : FrameIds) (rs : List Record) (st : GState) : Prop where
  flowsNodup : (st.flows.map Prod.fst).Nodup
  pendNodup : (st.pending.map Prod.fst).Nodup
  bindKeys : ∀ e, alookup st.bind e = firstKey fids rs e
  flowsBound : ∀ k ns, alookup st.flows k = some ns →
    alookup st.bind k.1 = some k
  memFlow : ∀ e k, alookup st.bind e = some k → ∀ r ∈ rs, ∀ n : Int,
    r.frame = some n → (filledIds fids r).1 = some e → n ∈ flowList st k
  memPend : ∀ e, alookup st.bind e = none → ∀ r ∈ rs, ∀ n : Int,
    r.frame = some n → (filledIds fids r).1 = some e →
    n ∈ pendingList st e
  flowSrc : ∀ k, ∀ n ∈ flowList st k, ∃ r ∈ rs,
    r.frame = some n ∧ (filledIds fids r).1 = some k.1
  pendSrc : ∀ e, ∀ n ∈ pendingList st e, ∃ r ∈ rs,
    r.frame = some n ∧ (filledIds fids r).1 = some e
  countLe : ∀ n : Int,
    countIn (st.flows.map Prod.snd) n + countIn (st.pending.map Prod.snd) n ≤
      (rs.filterMap Record.frame).count n

lemma inv_init (fids : FrameIds) : Inv fids [] ⟨[], [], []⟩ := by
  constructor <;>
    simp [alookup, firstKey, flowList, pendingList, countIn]

lemma bind_fst {fids rs st} (h : Inv fids rs st) {e : Int} {k : Int × Int}
    (hb : alookup st.bind e = some k) : k.1 = e := by
  rw [h.bindKeys] at hb
  exact firstKey_fst hb

/-- Frame counting is monotone in the processed list. -/
lemma count_filterMap_append (rs : List Record) (r : Record) (n : Int) :
    ((rs ++ [r]).filterMap Record.frame).count n =
      (rs.filterMap Record.frame).count n +
        (([r].filterMap Record.frame).count n) := by
  simp [List.filterMap_append, List.count_append]

lemma alookup_single_pair (e e' : Int) (k : Int × Int) :
    alookup [(e, k)] e' = if e = e' then some k else none := by
  simp [alookup]

lemma step_inv_enb_only {fids : FrameIds} {rs : List Record} {st : GState}
    (h : Inv fids rs st) {r : Record} {n e : Int}
    (hfr : r.frame = some n) (hfi : filledIds fids r = (some e, none)) :
    Inv fids (rs ++ [r]) (step fids st r) := by
  have hmemw : ∀ r' ∈ rs, r' ∈ rs ++ [r] := fun r' hm =>
    List.mem_append_left _ hm
  have hrmem : r ∈ rs ++ [r] := List.mem_append_right _ (by simp)
  have hbindk : ∀ e', firstKey fids (rs ++ [r]) e' = firstKey fids rs e' := by
    intro e'
    rw [firstKey_append_single, firstKey_single, hfi]
    simp
  have hcount : ∀ x : Int, ((rs ++ [r]).filterMap Record.frame).count x =
      (rs.filterMap Record.frame).count x + List.count x [n] := by
    intro x
    rw [count_filterMap_append]
    simp [hfr]
  have hnewr : ∀ {n' e' : Int}, r.frame = some n' →
      (filledIds fids r).1 = some e' → n' = n ∧ e' = e := by
    intro n' e' hn' hfil
    rw [hfr] at hn'
    rw [hfi] at hfil
    simp at hn' hfil
    exact ⟨hn'.symm, hfil.symm⟩
  cases hb : alookup st.bind e with
  | some k =>
      rw [step_enb_bound hfr hfi hb]
      have hk1 : k.1 = e := bind_fst h hb
      have hfl_self :
          flowList { st with flows := upsertAppend st.flows k [n] } k =
            flowList st k ++ [n] := by
        simp [flowList, alookup_upsertAppend_self]
      have hfl_ne : ∀ k', k' ≠ k →
          flowList { st with flows := upsertAppend st.flows k [n] } k' =
            flowList st k' := by
        intro k' hkk
        simp [flowList, alookup_upsertAppend_ne _ hkk]
      refine ⟨nodup_keys_upsertAppend h.flowsNodup _ _, h.pendNodup,
        ?_, ?_, ?_, ?_, ?_, ?_, ?_⟩
      · intro e'
        rw [hbindk]
        exact h.bindKeys e'
      · intro k' ns' hl
        by_cases hkk : k' = k
        · subst hkk
          show alookup st.bind k'.1 = some k'
          rw [hk1]
          exact hb
        · rw [show ({ st with flows := upsertAppend st.flows k [n] } :
              GState).flows = upsertAppend st.flows k [n] from rfl,
            alookup_upsertAppend_ne _ hkk] at hl
          exact h.flowsBound k' ns' hl
      · intro e' k' hb' r' hr' n' hn' hfil
        have hb'' : alookup st.bind e' = some k' := hb'
        rcases List.mem_append.mp hr' with hr'' | hr''
        · have hold := h.memFlow e' k' hb'' r' hr'' n' hn' hfil
          by_cases hkk : k' = k
          · subst hkk
            rw [hfl_self]
            exact List.mem_append_left _ hold
          · rw [hfl_ne k' hkk]
            exact hold
        · simp at hr''
          subst hr''
          obtain ⟨hn, he⟩ := hnewr hn' hfil
          subst hn
          subst he
          have hkk : k' = k := by
            rw [hb''] at hb
            exact Option.some_inj.mp hb
          subst hkk
          rw [hfl_self]
          exact List.mem_append_right _ (by simp)
      · intro e' hb' r' hr' n' hn' hfil
        have hb'' : alookup st.bind e' = none := hb'
        rcases List.mem_append.mp hr' with hr'' | hr''
        · exact h.memPend e' hb'' r' hr'' n' hn' hfil
        · simp at hr''
          subst hr''
          obtain ⟨hn, he⟩ := hnewr hn' hfil
          subst he
          rw [hb''] at hb
          exact absurd hb (by simp)
      · intro k' n' hn'
        by_cases hkk : k' = k
        · subst hkk
          rw [hfl_self] at hn'
          rcases List.mem_append.mp hn' with hn'' | hn''
          · obtain ⟨r', hr', hp⟩ := h.flowSrc k' n' hn''
            exact ⟨r', hmemw r' hr', hp⟩
          · simp at hn''
            subst hn''
            refine ⟨r, hrmem, hfr, ?_⟩
            rw [hfi, hk1]
        · rw [hfl_ne k' hkk] at hn'
          obtain ⟨r', hr', hp⟩ := h.flowSrc k' n' hn'
          exact ⟨r', hmemw r' hr', hp⟩
      · intro e' n' hn'
        obtain ⟨r', hr', hp⟩ := h.pendSrc e' n' hn'
        exact ⟨r', hmemw r' hr', hp⟩
      · intro x
        have h1 := countIn_upsertAppend st.flows k [n] x
        have h2 := h.countLe x
        rw [hcount]
        show countIn ((upsertAppend st.flows k [n]).map Prod.snd) x +
          countIn (st.pending.map Prod.snd) x ≤ _
        omega
  | none =>
      rw [step_enb_unbound hfr hfi hb]
      have hpl_self :
          pendingList { st with pending := upsertAppend st.pending e [n] } e =
            pendingList st e ++ [n] := by
        simp [pendingList, alookup_upsertAppend_self]
      have hpl_ne : ∀ e', e' ≠ e →
          pendingList { st with pending := upsertAppend st.pending e [n] } e' =
            pendingList st e' := by
        intro e' hee
        simp [pendingList, alookup_upsertAppend_ne _ hee]
      refine ⟨h.flowsNodup, nodup_keys_upsertAppend h.pendNodup _ _,
        ?_, ?_, ?_, ?_, ?_, ?_, ?_⟩
      · intro e'
        rw [hbindk]
        exact h.bindKeys e'
      · intro k' ns' hl
        exact h.flowsBound k' ns' hl
      · intro e' k' hb' r' hr' n' hn' hfil
        have hb'' : alookup st.bind e' = some k' := hb'
        rcases List.mem_append.mp hr' with hr'' | hr''
        · exact h.memFlow e' k' hb'' r' hr'' n' hn' hfil
        · simp at hr''
          subst hr''
          obtain ⟨hn, he⟩ := hnewr hn' hfil
          subst he
          rw [hb''] at hb
          exact absurd hb (by simp)
      · intro e' hb' r' hr' n' hn' hfil
        have hb'' : alookup st.bind e' = none := hb'
        rcases List.mem_append.mp hr' with hr'' | hr''
        · have hold := h.memPend e' hb'' r' hr'' n' hn' hfil
          by_cases hee : e' = e
          · subst hee
            rw [hpl_self]
            exact List.mem_append_left _ hold
          · rw [hpl_ne e' hee]
            exact hold
        · simp at hr''
          subst hr''
          obtain ⟨hn, he⟩ := hnewr hn' hfil
          subst hn
          subst he
          rw [hpl_self]
          exact List.mem_append_right _ (by simp)
      · intro k' n' hn'
        obtain ⟨r', hr', hp⟩ := h.flowSrc k' n' hn'
        exact ⟨r', hmemw r' hr', hp⟩
      · intro e' n' hn'
        by_cases hee : e' = e
        · subst hee
          rw [hpl_self] at hn'
          rcases List.mem_append.mp hn' with hn'' | hn''
          · obtain ⟨r', hr', hp⟩ := h.pendSrc e' n' hn''
            exact ⟨r', hmemw r' hr', hp⟩
          · simp at hn''
            subst hn''
            refine ⟨r, hrmem, hfr, ?_⟩
            rw [hfi]
        · rw [hpl_ne e' hee] at hn'
          obtain ⟨r', hr', hp⟩ := h.pendSrc e' n' hn'
          exact ⟨r', hmemw r' hr', hp⟩
      · intro x
        have h1 := countIn_upsertAppend st.pending e [n] x
        have h2 := h.countLe x
        rw [hcount]
        show countIn (st.flows.map Prod.snd) x +
          countIn ((upsertAppend st.pending e [n]).map Prod.snd) x ≤ _
        omega

lemma step_inv_both {fids : FrameIds} {rs : List Record} {st : GState}
    (h : Inv fids rs st) {r : Record} {n e m : Int}
    (hfr : r.frame = some n) (hfi : filledIds fids r = (some e, some m)) :
    Inv fids (rs ++ [r]) (step fids st r) := by
  have hmemw : ∀ r' ∈ rs, r' ∈ rs ++ [r] := fun r' hm =>
    List.mem_append_left _ hm
  have hrmem : r ∈ rs ++ [r] := List.mem_append_right _ (by simp)
  have hfirstr : ∀ e', firstKey fids [r] e' =
      if e = e' then some (e, m) else none := by
    intro e'
    rw [firstKey_single, hfi]
  have hcount : ∀ x : Int, ((rs ++ [r]).filterMap Record.frame).count x =
      (rs.filterMap Record.frame).count x + List.count x [n] := by
    intro x
    rw [count_filterMap_append]
    simp [hfr]
  have hnewr : ∀ {n' e' : Int}, r.frame = some n' →
      (filledIds fids r).1 = some e' → n' = n ∧ e' = e := by
    intro n' e' hn' hfil
    rw [hfr] at hn'
    rw [hfi] at hfil
    simp at hn' hfil
    exact ⟨hn'.symm, hfil.symm⟩
  cases hb : alookup st.bind e with
  | some k =>
      rw [step_both_bound hfr hfi hb]
      have hk1 : k.1 = e := bind_fst h hb
      have hfl_self :
          flowList { st with flows := upsertAppend st.flows k [n] } k =
            flowList st k ++ [n] := by
        simp [flowList, alookup_upsertAppend_self]
      have hfl_ne : ∀ k', k' ≠ k →
          flowList { st with flows := upsertAppend st.flows k [n] } k' =
            flowList st k' := by
        intro k' hkk
        simp [flowList, alookup_upsertAppend_ne _ hkk]
      refine ⟨nodup_keys_upsertAppend h.flowsNodup _ _, h.pendNodup,
        ?_, ?_, ?_, ?_, ?_, ?_, ?_⟩
      · intro e'
        show alookup st.bind e' = _
        rw [firstKey_append_single, hfirstr e']
        by_cases hee : e = e'
        · subst hee
          rw [h.bindKeys e, if_pos rfl]
          rw [h.bindKeys e] at hb
          rw [hb]
          rfl
        · rw [if_neg hee]
          simp [h.bindKeys e']
      · intro k' ns' hl
        by_cases hkk : k' = k
        · subst hkk
          show alookup st.bind k'.1 = some k'
          rw [hk1]
          exact hb
        · rw [show ({ st with flows := upsertAppend st.flows k [n] } :
              GState).flows = upsertAppend st.flows k [n] from rfl,
            alookup_upsertAppend_ne _ hkk] at hl
          exact h.flowsBound k' ns' hl
      · intro e' k' hb' r' hr' n' hn' hfil
        have hb'' : alookup st.bind e' = some k' := hb'
        rcases List.mem_append.mp hr' with hr'' | hr''
        · have hold := h.memFlow e' k' hb'' r' hr'' n' hn' hfil
          by_cases hkk : k' = k
          · subst hkk
            rw [hfl_self]
            exact List.mem_append_left _ hold
          · rw [hfl_ne k' hkk]
            exact hold
        · simp at hr''
          subst hr''
          obtain ⟨hn, he⟩ := hnewr hn' hfil
          subst hn
          subst he
          have hkk : k' = k := by
            rw [hb''] at hb
            exact Option.some_inj.mp hb
          subst hkk
          rw [hfl_self]
          exact List.mem_append_right _ (by simp)
      · intro e' hb' r' hr' n' hn' hfil
        have hb'' : alookup st.bind e' = none := hb'
        rcases List.mem_append.mp hr' with hr'' | hr''
        · exact h.memPend e' hb'' r' hr'' n' hn' hfil
        · simp at hr''
          subst hr''
          obtain ⟨hn, he⟩ := hnewr hn' hfil
          subst he
          rw [hb''] at hb
          exact absurd hb (by simp)
      · intro k' n' hn'
        by_cases hkk : k' = k
        · subst hkk
          rw [hfl_self] at hn'
          rcases List.mem_append.mp hn' with hn'' | hn''
          · obtain ⟨r', hr', hp⟩ := h.flowSrc k' n' hn''
            exact ⟨r', hmemw r' hr', hp⟩
          · simp at hn''
            subst hn''
            refine ⟨r, hrmem, hfr, ?_⟩
            rw [hfi, hk1]
        · rw [hfl_ne k' hkk] at hn'
          obtain ⟨r', hr', hp⟩ := h.flowSrc k' n' hn'
          exact ⟨r', hmemw r' hr', hp⟩
      · intro e' n' hn'
        obtain ⟨r', hr', hp⟩ := h.pendSrc e' n' hn'
        exact ⟨r', hmemw r' hr', hp⟩
      · intro x
        have h1 := countIn_upsertAppend st.flows k [n] x
        have h2 := h.countLe x
        rw [hcount]
        show countIn ((upsertAppend st.flows k [n]).map Prod.snd) x +
          countIn (st.pending.map Prod.snd) x ≤ _
        omega
  | none =>
      rw [step_both_unbound hfr hfi hb]
      have hfresh : alookup st.flows (e, m) = none := by
        cases hc : alookup st.flows (e, m) with
        | none => rfl
        | some ns =>
            have hbound := h.flowsBound (e, m) ns hc
            rw [show ((e, m) : Int × Int).1 = e from rfl, hb] at hbound
            exact absurd hbound (by simp)
      have hfl_self :
          flowList ⟨upsertAppend st.flows (e, m) (pendingList st e ++ [n]),
            removeKey st.pending e, st.bind ++ [(e, (e, m))]⟩ (e, m) =
            pendingList st e ++ [n] := by
        simp [flowList, alookup_upsertAppend_self, hfresh]
      have hfl_ne : ∀ k', k' ≠ (e, m) →
          flowList ⟨upsertAppend st.flows (e, m) (pendingList st e ++ [n]),
            removeKey st.pending e, st.bind ++ [(e, (e, m))]⟩ k' =
            flowList st k' := by
        intro k' hkk
        simp [flowList, alookup_upsertAppend_ne _ hkk]
      have hbind_self :
          alookup (st.bind ++ [(e, (e, m))]) e = some (e, m) := by
        rw [alookup_append, hb, alookup_single_pair]
        simp
      have hbind_ne : ∀ e', e' ≠ e →
          alookup (st.bind ++ [(e, (e, m))]) e' = alookup st.bind e' := by
        intro e' hee
        rw [alookup_append, alookup_single_pair,
          if_neg (fun hh => hee hh.symm)]
        cases alookup st.bind e' <;> rfl
      have hpend_self :
          pendingList ⟨upsertAppend st.flows (e, m)
            (pendingList st e ++ [n]),
            removeKey st.pending e, st.bind ++ [(e, (e, m))]⟩ e = [] := by
        simp [pendingList, alookup_removeKey_self]
      have hpend_ne : ∀ e', e' ≠ e →
          pendingList ⟨upsertAppend st.flows (e, m)
            (pendingList st e ++ [n]),
            removeKey st.pending e, st.bind ++ [(e, (e, m))]⟩ e' =
            pendingList st e' := by
        intro e' hee
        simp [pendingList, alookup_removeKey_ne hee]
      refine ⟨nodup_keys_upsertAppend h.flowsNodup _ _,
        nodup_keys_removeKey h.pendNodup e, ?_, ?_, ?_, ?_, ?_, ?_, ?_⟩
      · intro e'
        show alookup (st.bind ++ [(e, (e, m))]) e' = _
        rw [firstKey_append_single, hfirstr e']
        by_cases hee : e' = e
        · subst hee
          rw [hbind_self, if_pos rfl]
          rw [h.bindKeys e'] at hb
          rw [hb]
          rfl
        · rw [hbind_ne e' hee, if_neg (fun hh => hee hh.symm)]
          simp [h.bindKeys e']
      · intro k' ns' hl
        by_cases hkk : k' = (e, m)
        · subst hkk
          exact hbind_self
        · rw [show (⟨upsertAppend st.flows (e, m)
              (pendingList st e ++ [n]), removeKey st.pending e,
              st.bind ++ [(e, (e, m))]⟩ : GState).flows =
              upsertAppend st.flows (e, m) (pendingList st e ++ [n])
              from rfl, alookup_upsertAppend_ne _ hkk] at hl
          have hold := h.flowsBound k' ns' hl
          have hne : k'.1 ≠ e := by
            intro hh
            rw [hh, hb] at hold
            exact absurd hold (by simp)
          rw [hbind_ne k'.1 hne]
          exact hold
      · intro e' k' hb' r' hr' n' hn' hfil
        by_cases hee : e' = e
        · subst hee
          rw [hbind_self] at hb'
          have hk' : k' = (e', m) := (Option.some_inj.mp hb').symm
          subst hk'
          rw [hfl_self]
          rcases List.mem_append.mp hr' with hr'' | hr''
          · exact List.mem_append_left _
              (h.memPend e' hb r' hr'' n' hn' hfil)
          · simp at hr''
            subst hr''
            obtain ⟨hn, _⟩ := hnewr hn' hfil
            subst hn
            exact List.mem_append_right _ (by simp)
        · rw [hbind_ne e' hee] at hb'
          have hk1 : k'.1 = e' := bind_fst h hb'
          have hkk : k' ≠ (e, m) := by
            intro hh
            rw [hh] at hk1
            exact hee hk1.symm
          rw [hfl_ne k' hkk]
          rcases List.mem_append.mp hr' with hr'' | hr''
          · exact h.memFlow e' k' hb' r' hr'' n' hn' hfil
          · simp at hr''
            subst hr''
            obtain ⟨_, he⟩ := hnewr hn' hfil
            exact absurd he hee
      · intro e' hb' r' hr' n' hn' hfil
        by_cases hee : e' = e
        · subst hee
          rw [hbind_self] at hb'
          exact absurd hb' (by simp)
        · rw [hbind_ne e' hee] at hb'
          rw [hpend_ne e' hee]
          rcases List.mem_append.mp hr' with hr'' | hr''
          · exact h.memPend e' hb' r' hr'' n' hn' hfil
          · simp at hr''
            subst hr''
            obtain ⟨_, he⟩ := hnewr hn' hfil
            exact absurd he hee
      · intro k' n' hn'
        by_cases hkk : k' = (e, m)
        · subst hkk
          rw [hfl_self] at hn'
          rcases List.mem_append.mp hn' with hn'' | hn''
          · obtain ⟨r', hr', hp⟩ := h.pendSrc e n' hn''
            exact ⟨r', hmemw r' hr', hp⟩
          · simp at hn''
            subst hn''
            exact ⟨r, hrmem, hfr, by rw [hfi]⟩
        · rw [hfl_ne k' hkk] at hn'
          obtain ⟨r', hr', hp⟩ := h.flowSrc k' n' hn'
          exact ⟨r', hmemw r' hr', hp⟩
      · intro e' n' hn'
        by_cases hee : e' = e
        · subst hee
          rw [hpend_self] at hn'
          simp at hn'
        · rw [hpend_ne e' hee] at hn'
          obtain ⟨r', hr', hp⟩ := h.pendSrc e' n' hn'
          exact ⟨r', hmemw r' hr', hp⟩
      · intro x
        have h1 := countIn_upsertAppend st.flows (e, m)
          (pendingList st e ++ [n]) x
        have h2 := countIn_removeKey h.pendNodup e x
        have h3 := h.countLe x
        have h4 : (pendingList st e ++ [n]).count x =
            ((alookup st.pending e).getD []).count x + List.count x [n] := by
          rw [List.count_append]
          rfl
        rw [hcount]
        show countIn ((upsertAppend st.flows (e, m)
            (pendingList st e ++ [n])).map Prod.snd) x +
          countIn ((removeKey st.pending e).map Prod.snd) x ≤ _
        omega

lemma step_inv {fids : FrameIds} {rs : List Record} {st : GState}
    (h : Inv fids rs st) (r : Record) :
    Inv fids (rs ++ [r]) (step fids st r) := by
  have hcount_mono : ∀ n : Int,
      (rs.filterMap Record.frame).count n ≤
        ((rs ++ [r]).filterMap Record.frame).count n := by
    intro n
    rw [count_filterMap_append]
    omega
  have hmemw : ∀ r' ∈ rs, r' ∈ rs ++ [r] := fun r' hm =>
    List.mem_append_left _ hm
  cases hfr : r.frame with
  | none =>
      rw [step_skip_of_frame_none hfr]
      have hfi : filledIds fids r = (none, none) :=
        filledIds_of_frame_none hfr
      refine ⟨h.flowsNodup, h.pendNodup, ?_, h.flowsBound, ?_, ?_, ?_, ?_, ?_⟩
      · intro e
        rw [firstKey_append_single, firstKey_single, hfi]
        simp [h.bindKeys e]
      · intro e k hb r' hr' n hn hfil
        rcases List.mem_append.mp hr' with hr' | hr'
        · exact h.memFlow e k hb r' hr' n hn hfil
        · simp at hr'
          subst hr'
          rw [hfi] at hfil
          simp at hfil
      · intro e hb r' hr' n hn hfil
        rcases List.mem_append.mp hr' with hr' | hr'
        · exact h.memPend e hb r' hr' n hn hfil
        · simp at hr'
          subst hr'
          rw [hfi] at hfil
          simp at hfil
      · intro k n hn
        obtain ⟨r', hr', hp⟩ := h.flowSrc k n hn
        exact ⟨r', hmemw r' hr', hp⟩
      · intro e n hn
        obtain ⟨r', hr', hp⟩ := h.pendSrc e n hn
        exact ⟨r', hmemw r' hr', hp⟩
      · intro n
        exact le_trans (h.countLe n) (hcount_mono n)
  | some n =>
      rcases hfi : filledIds fids r with ⟨oe, om⟩
      cases oe with
      | none =>
          rw [step_skip_of_no_enb hfr (by rw [hfi])]
          refine ⟨h.flowsNodup, h.pendNodup, ?_, h.flowsBound, ?_, ?_, ?_,
            ?_, ?_⟩
          · intro e
            rw [firstKey_append_single, firstKey_single, hfi]
            simp [h.bindKeys e]
          · intro e k hb r' hr' n' hn hfil
            rcases List.mem_append.mp hr' with hr' | hr'
            · exact h.memFlow e k hb r' hr' n' hn hfil
            · simp at hr'
              subst hr'
              rw [hfi] at hfil
              simp at hfil
          · intro e hb r' hr' n' hn hfil
            rcases List.mem_append.mp hr' with hr' | hr'
            · exact h.memPend e hb r' hr' n' hn hfil
            · simp at hr'
              subst hr'
              rw [hfi] at hfil
              simp at hfil
          · intro k n' hn
            obtain ⟨r', hr', hp⟩ := h.flowSrc k n' hn
            exact ⟨r', hmemw r' hr', hp⟩
          · intro e n' hn
            obtain ⟨r', hr', hp⟩ := h.pendSrc e n' hn
            exact ⟨r', hmemw r' hr', hp⟩
          · intro n'
            exact le_trans (h.countLe n') (hcount_mono n')
      | some e =>
          cases om with
          | none => exact step_inv_enb_only h hfr hfi
          | some m => exact step_inv_both h hfr hfi

lemma inv_run (fids : FrameIds) (records : List Record) :
    Inv fids records (runGroup fids records) := by
  have main : ∀ (l rs : List Record) (st : GState), Inv fids rs st →
      Inv fids (rs ++ l) (l.foldl (step fids) st) := by
    intro l
    induction l with
    | nil =>
        intro rs st h
        simpa using h
    | cons r l ih =>
        intro rs st h
        have h2 := ih (rs ++ [r]) (step fids st r) (step_inv h r)
        simpa using h2
  simpa using main records [] ⟨[], [], []⟩ (inv_init fids)

section SortedDedupLemmas

lemma mem_insertUnique {x n : Int} {l : List Int} :
    x ∈ insertUnique n l ↔ x = n ∨ x ∈ l := by
  induction l with
  | nil => simp [insertUnique]
  | cons m rest ih =>
      by_cases h1 : n < m
      · simp [insertUnique, h1]
      · by_cases h2 : n = m
        · subst h2
          simp [insertUnique, h1]
        · simp [insertUnique, h1, h2, ih]
          tauto

lemma sorted_insertUnique {n : Int} {l : List Int}
    (h : List.Sorted (· < ·) l) :
    List.Sorted (· < ·) (insertUnique n l) := by
  induction l with
  | nil => simp [insertUnique]
  | cons m rest ih =>
      rw [List.sorted_cons] at h
      by_cases h1 : n < m
      · rw [show insertUnique n (m :: rest) = n :: m :: rest by
          simp [insertUnique, h1]]
        rw [List.sorted_cons]
        refine ⟨?_, List.sorted_cons.mpr h⟩
        intro b hb
        rcases List.mem_cons.mp hb with hb | hb
        · subst hb
          exact h1
        · exact h1.trans (h.1 b hb)
      · by_cases h2 : n = m
        · rw [show insertUnique n (m :: rest) = m :: rest by
            simp [insertUnique, h1, h2]]
          exact List.sorted_cons.mpr h
        · rw [show insertUnique n (m :: rest) = m :: insertUnique n rest by
            simp [insertUnique, h1, h2]]
          rw [List.sorted_cons]
          refine ⟨?_, ih h.2⟩
          intro b hb
          rcases mem_insertUnique.mp hb with hb | hb
          · subst hb
            rcases lt_trichotomy b m with hlt | heq | hgt
            · exact absurd hlt h1
            · exact absurd heq h2
            · exact hgt
          · exact h.1 b hb

lemma sorted_sortedDedup (ns : List Int) :
    List.Sorted (· < ·) (sortedDedup ns) := by
  induction ns with
  | nil => simp [sortedDedup]
  | cons n rest ih => exact sorted_insertUnique ih

lemma mem_sortedDedup {x : Int} {ns : List Int} :
    x ∈ sortedDedup ns ↔ x ∈ ns := by
  induction ns with
  | nil => simp [sortedDedup]
  | cons n rest ih =>
      show x ∈ insertUnique n (sortedDedup rest) ↔ _
      rw [mem_insertUnique, ih]
      simp

lemma nodup_sortedDedup (ns : List Int) : (sortedDedup ns).Nodup :=
  (sorted_sortedDedup ns).imp (fun h => ne_of_lt h)

lemma sortedLe_sortedDedup (ns : List Int) :
    List.Sorted (· ≤ ·) (sortedDedup ns) :=
  (sorted_sortedDedup ns).imp (fun h => le_of_lt h)

end SortedDedupLemmas

lemma groupFlows_mem {records : List Record} {fids : FrameIds}
    {k : Int × Int} {ns : List Int} :
    (k, ns) ∈ groupFlows records fids ↔
      ∃ ns₀, (k, ns₀) ∈ (runGroup fids records).flows ∧
        ns = sortedDedup ns₀ := by
  simp only [groupFlows, List.mem_map]
  constructor
  · rintro ⟨⟨k', ns₀⟩, hmem, heq⟩
    simp only [Prod.mk.injEq] at heq
    exact ⟨ns₀, heq.1 ▸ hmem, heq.2.symm⟩
  · rintro ⟨ns₀, hmem, heq⟩
    exact ⟨(k, ns₀), hmem, by simp [heq]⟩

lemma groupFlows_entry_lookup {records : List Record} {fids : FrameIds}
    {k : Int × Int} {ns : List Int}
    (h : (k, ns) ∈ groupFlows records fids) :
    ∃ ns₀, alookup (runGroup fids records).flows k = some ns₀ ∧
      ns = sortedDedup ns₀ := by
  obtain ⟨ns₀, hmem, heq⟩ := groupFlows_mem.mp h
  exact ⟨ns₀,
    alookup_eq_some_of_mem_nodup (inv_run fids records).flowsNodup hmem, heq⟩

/-- C1. First-seen-wins binding: in the output of `group_flows`, (a) at most
one flow exists per primary identifier, (b) that flow's key is the pair
carried by the first record pairing the primary with a secondary identifier,
(c) every record carrying that primary identifier (after supplemental fill)
has its frame number in that flow — so later conflicting secondary
identifiers never create or divert a flow; and (d) concretely, frames
(1: 5 with 9), (2: 5 only), (3: 5 with 77) produce exactly the flow
(5, 9) ↦ [1, 2, 3] and no flow keyed (5, 77). -/
theorem groupFlows_first_seen_wins (fids : FrameIds)
    (records : List Record) :
    (∀ k ns k' ns', (k, ns) ∈ groupFlows records fids →
      (k', ns') ∈ groupFlows records fids → k.1 = k'.1 → k = k') ∧
    (∀ k ns, (k, ns) ∈ groupFlows records fids →
      firstKey fids records k.1 = some k) ∧
    (∀ k ns, (k, ns) ∈ groupFlows records fids → ∀ r ∈ records,
      ∀ n : Int, r.frame = some n → (filledIds fids r).1 = some k.1 →
      n ∈ ns) ∧
    groupFlows [⟨some 1, some 5, some 9⟩, ⟨some 2, some 5, none⟩,
      ⟨some 3, some 5, some 77⟩] (fun _ => none) = [((5, 9), [1, 2, 3])] := by
  have hinv := inv_run fids records
  have hbound : ∀ k ns, (k, ns) ∈ groupFlows records fids →
      alookup (runGroup fids records).bind k.1 = some k := by
    intro k ns h
    obtain ⟨ns₀, hl, _⟩ := groupFlows_entry_lookup h
    exact hinv.flowsBound k ns₀ hl
  have hfirst : ∀ k ns, (k, ns) ∈ groupFlows records fids →
      firstKey fids records k.1 = some k := by
    intro k ns h
    rw [← hinv.bindKeys]
    exact hbound k ns h
  refine ⟨?_, hfirst, ?_, by decide⟩
  · intro k ns k' ns' h h' heq
    have h1 := hfirst k ns h
    have h2 := hfirst k' ns' h'
    rw [heq, h2] at h1
    exact (Option.some_inj.mp h1).symm
  · intro k ns h r hr n hn hfil
    obtain ⟨ns₀, hl, heq⟩ := groupFlows_entry_lookup h
    have hmem := hinv.memFlow k.1 k (hbound k ns h) r hr n hn hfil
    rw [heq, mem_sortedDedup]
    simpa [flowList, hl] using hmem

/-- Witness for C1 at the concrete record list of the claim: frame 2,
carrying only primary identifier 5, lands in the flow keyed (5, 9). -/
theorem groupFlows_first_seen_wins_witness :
    ((5, 9), [1, 2, 3]) ∈ groupFlows
        [⟨some 1, some 5, some 9⟩, ⟨some 2, some 5, none⟩,
          ⟨some 3, some 5, some 77⟩] (fun _ => none) ∧
      (2 : Int) ∈ ([1, 2, 3] : List Int) :=
  ⟨by decide,
    (groupFlows_first_seen_wins (fun _ => none)
        [⟨some 1, some 5, some 9⟩, ⟨some 2, some 5, none⟩,
          ⟨some 3, some 5, some 77⟩]).2.2.1 (5, 9) [1, 2, 3] (by decide)
      ⟨some 2, some 5, none⟩ (by decide) 2 rfl (by decide)⟩

/-- C2. Pending-then-resolved: a frame with only a bound primary identifier
is appended to the bound flow; with an unbound primary identifier it goes to
that identifier's pending bucket; the first frame pairing the primary with a
secondary identifier drains the whole bucket into the new flow (its frames
followed by the current frame), deletes the bucket and binds the primary;
concretely, (1: 3 only), (2: 3 with 8) yield the flow (3, 8) ↦ [1, 2] in
ascending order. -/
theorem groupFlows_pending_drain (fids : FrameIds) :
    (∀ (st : GState) (r : Record) (n e : Int) (k : Int × Int),
      r.frame = some n → filledIds fids r = (some e, none) →
      alookup st.bind e = some k →
      step fids st r = { st with flows := upsertAppend st.flows k [n] }) ∧
    (∀ (st : GState) (r : Record) (n e : Int),
      r.frame = some n → filledIds fids r = (some e, none) →
      alookup st.bind e = none →
      step fids st r =
        { st with pending := upsertAppend st.pending e [n] }) ∧
    (∀ (st : GState) (r : Record) (n e m : Int),
      r.frame = some n → filledIds fids r = (some e, some m) →
      alookup st.bind e = none → alookup st.flows (e, m) = none →
      flowList (step fids st r) (e, m) = pendingList st e ++ [n] ∧
      alookup (step fids st r).pending e = none ∧
      alookup (step fids st r).bind e = some (e, m)) ∧
    groupFlows [⟨some 1, some 3, none⟩, ⟨some 2, some 3, some 8⟩]
      (fun _ => none) = [((3, 8), [1, 2])] := by
  refine ⟨fun st r n e k hfr hfi hb => step_enb_bound hfr hfi hb,
    fun st r n e hfr hfi hb => step_enb_unbound hfr hfi hb,
    ?_, by decide⟩
  intro st r n e m hfr hfi hb hfresh
  rw [step_both_unbound hfr hfi hb]
  refine ⟨?_, ?_, ?_⟩
  · simp [flowList, alookup_upsertAppend_self, hfresh]
  · exact alookup_removeKey_self st.pending e
  · show alookup (st.bind ++ [(e, (e, m))]) e = some (e, m)
    rw [alookup_append, hb, alookup_single_pair]
    simp

/-- Witness for C2: from a state with pending bucket 3 ↦ [1], the record
(frame 2, primary 3, secondary 8) creates flow (3, 8) = [1, 2], empties the
bucket and binds 3. -/
theorem groupFlows_pending_drain_witness :
    flowList (step (fun _ => none) ⟨[], [(3, [1])], []⟩
        ⟨some 2, some 3, some 8⟩) (3, 8) =
      pendingList ⟨[], [(3, [1])], []⟩ 3 ++ [2] ∧
    alookup (step (fun _ => none) ⟨[], [(3, [1])], []⟩
        ⟨some 2, some 3, some 8⟩).pending 3 = none ∧
    alookup (step (fun _ => none) ⟨[], [(3, [1])], []⟩
        ⟨some 2, some 3, some 8⟩).bind 3 = some (3, 8) :=
  (groupFlows_pending_drain (fun _ => none)).2.2.1
    ⟨[], [(3, [1])], []⟩ ⟨some 2, some 3, some 8⟩ 2 3 8 rfl (by decide)
    (by decide) (by decide)

/-- C3. Drop policy: (a) every frame number in an emitted flow comes from a
record that carried the flow's primary identifier after supplemental fill
(so records with only a secondary identifier, or neither, contribute no flow
membership); (b) a primary identifier never seen together with a secondary
identifier yields no emitted flow; (c) hence a frame number carried only by
records with that never-paired primary identifier (or with no primary)
appears in no emitted flow. -/
theorem groupFlows_drop_policy (fids : FrameIds) (records : List Record) :
    (∀ k ns, (k, ns) ∈ groupFlows records fids → ∀ n ∈ ns, ∃ r ∈ records,
      r.frame = some n ∧ (filledIds fids r).1 = some k.1) ∧
    (∀ e : Int, (∀ r ∈ records, (filledIds fids r).1 = some e →
        (filledIds fids r).2 = none) →
      ∀ k ns, (k, ns) ∈ groupFlows records fids → k.1 ≠ e) ∧
    (∀ (e n : Int), (∀ r ∈ records, (filledIds fids r).1 = some e →
        (filledIds fids r).2 = none) →
      (∀ r ∈ records, r.frame = some n → (filledIds fids r).1 = none ∨
        (filledIds fids r).1 = some e) →
      ∀ k ns, (k, ns) ∈ groupFlows records fids → n ∉ ns) := by
  have hinv := inv_run fids records
  have hsrc : ∀ k ns, (k, ns) ∈ groupFlows records fids → ∀ n ∈ ns,
      ∃ r ∈ records, r.frame = some n ∧
        (filledIds fids r).1 = some k.1 := by
    intro k ns h n hn
    obtain ⟨ns₀, hl, heq⟩ := groupFlows_entry_lookup h
    rw [heq, mem_sortedDedup] at hn
    exact hinv.flowSrc k n (by simpa [flowList, hl] using hn)
  have hneverVoid : ∀ e : Int, (∀ r ∈ records,
      (filledIds fids r).1 = some e → (filledIds fids r).2 = none) →
      ∀ k ns, (k, ns) ∈ groupFlows records fids → k.1 ≠ e := by
    intro e hnever k ns h hke
    obtain ⟨ns₀, hl, _⟩ := groupFlows_entry_lookup h
    have hb := hinv.flowsBound k ns₀ hl
    rw [hinv.bindKeys] at hb
    obtain ⟨r, hr, hfil⟩ := firstKey_spec hb
    have h1 : (filledIds fids r).1 = some k.1 := by rw [hfil]
    have h2 : (filledIds fids r).2 = some k.2 := by rw [hfil]
    rw [hke] at h1
    rw [hnever r hr h1] at h2
    exact absurd h2 (by simp)
  refine ⟨hsrc, hneverVoid, ?_⟩
  intro e n hnever honly k ns h hn
  obtain ⟨r, hr, hfr, hfil⟩ := hsrc k ns h n hn
  rcases honly r hr hfr with hnone | hsome
  · rw [hfil] at hnone
    exact absurd hnone (by simp)
  · rw [hfil] at hsome
    have : k.1 = e := Option.some_inj.mp hsome
    exact hneverVoid e hnever k ns h this

/-- Witness for C3: with records (frame 1: primary 5 paired with 9) and
(frame 2: primary 4 never paired), the emitted flow's key does not use the
never-paired primary identifier 4, and the pending frame 2 is in no flow. -/
theorem groupFlows_drop_policy_witness :
    ((5, 9) : Int × Int).1 ≠ 4 ∧
    (2 : Int) ∉ ([1] : List Int) :=
  ⟨(groupFlows_drop_policy (fun _ => none)
      [⟨some 1, some 5, some 9⟩, ⟨some 2, some 4, none⟩]).2.1 4
      (by decide) (5, 9) [1] (by decide),
    (groupFlows_drop_policy (fun _ => none)
      [⟨some 1, some 5, some 9⟩, ⟨some 2, some 4, none⟩]).2.2 4 2
      (by decide) (by decide) (5, 9) [1] (by decide)⟩

/-- C4. Partition invariant: when the input frame numbers are pairwise
distinct, a frame number belongs to at most one emitted flow, every emitted
flow's frame list is duplicate-free and sorted ascending, and all emitted
frame numbers come from the input records. -/
theorem groupFlows_partition (fids : FrameIds) (records : List Record)
    (hu : (records.filterMap Record.frame).Nodup) :
    (∀ (n : Int) k ns k' ns', (k, ns) ∈ groupFlows records fids →
      (k', ns') ∈ groupFlows records fids → n ∈ ns → n ∈ ns' →
      k = k' ∧ ns = ns') ∧
    (∀ k ns, (k, ns) ∈ groupFlows records fids →
      ns.Nodup ∧ List.Sorted (· ≤ ·) ns) ∧
    (∀ k ns, (k, ns) ∈ groupFlows records fids → ∀ n ∈ ns,
      n ∈ records.filterMap Record.frame) := by
  have hinv := inv_run fids records
  refine ⟨?_, ?_, ?_⟩
  · intro n k ns k' ns' h h' hn hn'
    obtain ⟨ns₀, hmem, heq⟩ := groupFlows_mem.mp h
    obtain ⟨ns₀', hmem', heq'⟩ := groupFlows_mem.mp h'
    rw [heq, mem_sortedDedup] at hn
    rw [heq', mem_sortedDedup] at hn'
    have hkk : k = k' := by
      by_contra hne
      have hcnt := two_counts_le_countIn hmem hmem' hne n
      have hc1 : 0 < ns₀.count n := List.count_pos_iff.mpr hn
      have hc2 : 0 < ns₀'.count n := List.count_pos_iff.mpr hn'
      have hle := hinv.countLe n
      have hcap : (records.filterMap Record.frame).count n ≤ 1 :=
        List.nodup_iff_count_le_one.mp hu n
      omega
    subst hkk
    have hl := alookup_eq_some_of_mem_nodup hinv.flowsNodup hmem
    have hl' := alookup_eq_some_of_mem_nodup hinv.flowsNodup hmem'
    rw [hl] at hl'
    have : ns₀ = ns₀' := Option.some_inj.mp hl'
    subst this
    rw [heq, heq']
    exact ⟨rfl, rfl⟩
  · intro k ns h
    obtain ⟨ns₀, _, heq⟩ := groupFlows_mem.mp h
    rw [heq]
    exact ⟨nodup_sortedDedup ns₀, sortedLe_sortedDedup ns₀⟩
  · intro k ns h n hn
    obtain ⟨ns₀, hl, heq⟩ := groupFlows_entry_lookup h
    rw [heq, mem_sortedDedup] at hn
    obtain ⟨r, hr, hfr, _⟩ :=
      hinv.flowSrc k n (by simpa [flowList, hl] using hn)
    exact List.mem_filterMap.mpr ⟨r, hr, hfr⟩

/-- Witness for C4 at the concrete record list of C1: frame 2 of the emitted
flow is one of the input frame numbers. -/
theorem groupFlows_partition_witness :
    (2 : Int) ∈ List.filterMap Record.frame
      [⟨some 1, some 5, some 9⟩, ⟨some 2, some 5, none⟩,
        ⟨some 3, some 5, some 77⟩] :=
  (groupFlows_partition (fun _ => none)
      [⟨some 1, some 5, some 9⟩, ⟨some 2, some 5, none⟩,
        ⟨some 3, some 5, some 77⟩] (by decide)).2.2 (5, 9) [1, 2, 3]
    (by decide) 2 (by decide)

/-!
Time-window filtering (`filter_flows_by_time.py`). Timestamps are floats in
the source but are only parsed, compared and min/max-reduced, so they are
modelled by rationals.
-/

/-- One flow object of the persisted flow-set JSON (produced by
`group_s1ap_flows.py`, consumed by `filter_flows_by_time.py`). -/
structure Flow where
  enb_ue_s1ap_id : Option Int
  mme_ue_s1ap_id : Option Int
  start_time : Option ℚ
  end_time : Option ℚ
  frames : List Int
deriving DecidableEq

/-- The two `--mode` values of `filter_flows_by_time.py`. -/
inductive FilterMode where
  | contained
  | overlap
deriving DecidableEq

/-- The `keep` predicate (lines 365-375 of `filter_flows_by_time.py`):
flows missing either time are dropped; `contained` keeps
`st >= start and en <= end`; `overlap` keeps `not (en < start or st > end)`. -/
def keep (mode : FilterMode) (start endT : ℚ) (f : Flow) : Bool :=
  match f.start_time, f.end_time with
  | some st, some en =>
      match mode with
      | .contained => decide (st ≥ start) && decide (en ≤ endT)
      | .overlap => !(decide (en < start) || decide (st > endT))
  | _, _ => false

/-- C5. The time-window keep predicate: under `contained` a flow is kept iff
both times are present with `start_time >= start` and `end_time <= end`;
under `overlap` iff both times are present and the intervals intersect with
inclusive boundaries; a flow missing either time is excluded under both
modes. -/
theorem keep_characterization (start endT : ℚ) (f : Flow)
    (hse : start ≤ endT) :
    (keep .contained start endT f = true ↔ ∃ st en,
      f.start_time = some st ∧ f.end_time = some en ∧
        start ≤ st ∧ en ≤ endT) ∧
    (keep .overlap start endT f = true ↔ ∃ st en,
      f.start_time = some st ∧ f.end_time = some en ∧
        ¬(en < start ∨ st > endT)) ∧
    (∀ mode : FilterMode, f.start_time = none ∨ f.end_time = none →
      keep mode start endT f = false) := by
  refine ⟨?_, ?_, ?_⟩
  · cases hst : f.start_time with
    | none => simp [keep, hst]
    | some st =>
        cases hen : f.end_time with
        | none => simp [keep, hst, hen]
        | some en =>
            simp only [keep, hst, hen]
            constructor
            · intro h
              simp only [Bool.and_eq_true, decide_eq_true_eq] at h
              exact ⟨st, en, rfl, rfl, h.1, h.2⟩
            · rintro ⟨st', en', hst', hen', h1, h2⟩
              cases hst'
              cases hen'
              simp [h1, h2, ge_iff_le]
  · cases hst : f.start_time with
    | none => simp [keep, hst]
    | some st =>
        cases hen : f.end_time with
        | none => simp [keep, hst, hen]
        | some en =>
            simp only [keep, hst, hen]
            constructor
            · intro h
              simp only [Bool.not_eq_true', Bool.or_eq_false_iff,
                decide_eq_false_iff_not] at h
              refine ⟨st, en, rfl, rfl, ?_⟩
              rintro (h1 | h1)
              · exact h.1 h1
              · exact h.2 h1
            · rintro ⟨st', en', hst', hen', h1⟩
              cases hst'
              cases hen'
              push_neg at h1
              simp [Bool.not_eq_true', Bool.or_eq_false_iff, not_lt.mpr h1.1,
                not_lt.mpr h1.2]
  · intro mode hnone
    rcases hnone with hnone | hnone <;>
      · cases mode <;> simp [keep, hnone] <;>
          cases f.start_time <;> simp

/-- Witness for C5: the spec §8 example flow [100, 110] is kept as contained
in [90, 120], and a flow with a missing start time is always excluded. -/
theorem keep_characterization_witness :
    ((90 : ℚ) ≤ 120) ∧
    keep .contained 90 120 ⟨some 1, some 2, some 100, some 110, [1]⟩ =
      true ∧
    keep .overlap 90 120 ⟨some 1, some 2, none, some 110, [1]⟩ = false :=
  ⟨by norm_num,
    (keep_characterization 90 120 ⟨some 1, some 2, some 100, some 110, [1]⟩
        (by norm_num)).1.mpr ⟨100, 110, rfl, rfl, by norm_num, by norm_num⟩,
    (keep_characterization 90 120 ⟨some 1, some 2, none, some 110, [1]⟩
        (by norm_num)).2.2 .overlap (Or.inl rfl)⟩

/-- An external frame → timestamp map (`build_frame_time_map` output). -/
abbrev FrameTime := Int → Option ℚ

/-- The loop body of `fill_missing_times` (lines 151-163 of
`filter_flows_by_time.py`): skip flows with both times present; collect the
mapped timestamps of the member frames; if none, leave the flow alone;
otherwise set BOTH `start_time` and `end_time` to their min and max. -/
def fillFlow (frameTime : FrameTime) (f : Flow) : Flow :=
  match f.start_time, f.end_time with
  | some _, some _ => f
  | _, _ =>
      match f.frames.filterMap frameTime with
      | [] => f
      | t :: ts =>
          { f with start_time := some (ts.foldl min t)
                   end_time := some (ts.foldl max t) }

/-- The function `fill_missing_times` over the whole flow list. -/
def fillMissingTimes (frameTime : FrameTime) (flows : List Flow) :
    List Flow :=
  flows.map (fillFlow frameTime)

section FoldMinMax

variable {α : Type} [LinearOrder α]

lemma foldl_min_mem : ∀ (ts : List α) (t : α), ts.foldl min t ∈ t :: ts := by
  intro ts
  induction ts with
  | nil => simp
  | cons c ts ih =>
      intro t
      have h := ih (min t c)
      rcases min_choice t c with hm | hm <;>
        · rw [hm] at h
          rcases List.mem_cons.mp h with h1 | h1 <;>
            simp [List.foldl_cons, hm, h1]

lemma foldl_min_le : ∀ (ts : List α) (t x : α), x ∈ t :: ts →
    ts.foldl min t ≤ x := by
  intro ts
  induction ts with
  | nil =>
      intro t x hx
      simp at hx
      simp [hx]
  | cons c ts ih =>
      intro t x hx
      rw [List.foldl_cons]
      rcases List.mem_cons.mp hx with h1 | h1
      · rw [h1]
        exact le_trans (ih (min t c) (min t c) (by simp)) (min_le_left t c)
      · rcases List.mem_cons.mp h1 with h2 | h2
        · rw [h2]
          exact le_trans (ih (min t c) (min t c) (by simp)) (min_le_right t c)
        · exact ih (min t c) x (List.mem_cons_of_mem _ h2)

lemma foldl_max_mem : ∀ (ts : List α) (t : α), ts.foldl max t ∈ t :: ts := by
  intro ts
  induction ts with
  | nil => simp
  | cons c ts ih =>
      intro t
      have h := ih (max t c)
      rcases max_choice t c with hm | hm <;>
        · rw [hm] at h
          rcases List.mem_cons.mp h with h1 | h1 <;>
            simp [List.foldl_cons, hm, h1]

lemma le_foldl_max : ∀ (ts : List α) (t x : α), x ∈ t :: ts →
    x ≤ ts.foldl max t := by
  intro ts
  induction ts with
  | nil =>
      intro t x hx
      simp at hx
      simp [hx]
  | cons c ts ih =>
      intro t x hx
      rw [List.foldl_cons]
      rcases List.mem_cons.mp hx with h1 | h1
      · rw [h1]
        exact le_trans (le_max_left t c) (ih (max t c) (max t c) (by simp))
      · rcases List.mem_cons.mp h1 with h2 | h2
        · rw [h2]
          exact le_trans (le_max_right t c) (ih (max t c) (max t c) (by simp))
        · exact ih (max t c) x (List.mem_cons_of_mem _ h2)

end FoldMinMax

/-- C10. Frame effect of the time backfill on one flow: unchanged when both
times are present, unchanged when no member frame has a mapped timestamp,
and otherwise both times are set to the minimum and maximum mapped
timestamps (overwriting whichever was present) with no other field
modified. -/
theorem fillFlow_frame_effect (frameTime : FrameTime) (f : Flow) :
    (f.start_time ≠ none → f.end_time ≠ none → fillFlow frameTime f = f) ∧
    (f.frames.filterMap frameTime = [] → fillFlow frameTime f = f) ∧
    (∀ (t : ℚ) (ts : List ℚ),
      (f.start_time = none ∨ f.end_time = none) →
      f.frames.filterMap frameTime = t :: ts →
      ∃ m M, fillFlow frameTime f =
          { f with start_time := some m, end_time := some M } ∧
        m ∈ t :: ts ∧ M ∈ t :: ts ∧
        ∀ x ∈ t :: ts, m ≤ x ∧ x ≤ M) := by
  refine ⟨?_, ?_, ?_⟩
  · intro hst hen
    cases hs : f.start_time with
    | none => exact absurd hs hst
    | some st =>
        cases he : f.end_time with
        | none => exact absurd he hen
        | some en => simp [fillFlow, hs, he]
  · intro htimes
    cases hs : f.start_time with
    | none =>
        cases he : f.end_time with
        | none => simp [fillFlow, hs, he, htimes]
        | some en => simp [fillFlow, hs, he, htimes]
    | some st =>
        cases he : f.end_time with
        | none => simp [fillFlow, hs, he, htimes]
        | some en => simp [fillFlow, hs, he]
  · intro t ts hmiss htimes
    have hfill : fillFlow frameTime f =
        { f with start_time := some (ts.foldl min t)
                 end_time := some (ts.foldl max t) } := by
      rcases hmiss with hs | he
      · cases he : f.end_time with
        | none => simp [fillFlow, hs, he, htimes]
        | some en => simp [fillFlow, hs, he, htimes]
      · cases hs : f.start_time with
        | none => simp [fillFlow, hs, he, htimes]
        | some st => simp [fillFlow, hs, he, htimes]
    refine ⟨ts.foldl min t, ts.foldl max t, hfill,
      foldl_min_mem ts t, foldl_max_mem ts t, ?_⟩
    intro x hx
    exact ⟨foldl_min_le ts t x hx, le_foldl_max ts t x hx⟩

/-- Witness for C10: a flow with a present start time but no end time and
mapped member timestamps 3 and 7 gets start 3 and end 7 (start overwritten),
frames and identifiers untouched. -/
theorem fillFlow_frame_effect_witness :
    ∃ m M,
      fillFlow (fun n => if n = 1 then some 3 else
          if n = 2 then some 7 else none)
        ⟨some 4, some 5, some 100, none, [1, 2]⟩ =
        { (⟨some 4, some 5, some 100, none, [1, 2]⟩ : Flow) with
            start_time := some m, end_time := some M } ∧
      m ∈ [(3 : ℚ), 7] ∧ M ∈ [(3 : ℚ), 7] ∧
      ∀ x ∈ [(3 : ℚ), 7], m ≤ x ∧ x ≤ M :=
  (fillFlow_frame_effect
      (fun n => if n = 1 then some 3 else if n = 2 then some 7 else none)
      ⟨some 4, some 5, some 100, none, [1, 2]⟩).2.2 3 [7]
    (Or.inr rfl) (by decide)

/-!
Identifier parsing. `_to_int` (lines 56-70 of `group_s1ap_flows.py`) is
modelled on ASCII strings without digit-group underscores: `int(s)` is an
optionally signed nonempty run of decimal digits, `int(s, 16)` an optionally
signed, optionally `0x`/`0X`-prefixed nonempty run of hexadecimal digits.
-/

/-- ASCII whitespace stripped by `str.strip()`. -/
def isPySpace (c : Char) : Bool :=
  c == ' ' || c == '\t' || c == '\n' || c == '\r' ||
    c == Char.ofNat 11 || c == Char.ofNat 12

/-- Python `str.strip()`: drop whitespace from both ends. -/
def pyStrip (cs : List Char) : List Char :=
  ((cs.dropWhile isPySpace).reverse.dropWhile isPySpace).reverse

/-- Value of a run of decimal digits. -/
def digitsVal (cs : List Char) : Nat :=
  cs.foldl (fun a c => a * 10 + (c.toNat - 48)) 0

/-- A hexadecimal digit. -/
def isHexC (c : Char) : Bool :=
  c.isDigit || ('a' ≤ c && c ≤ 'f') || ('A' ≤ c && c ≤ 'F')

/-- Value of one hexadecimal digit. -/
def hexVal (c : Char) : Nat :=
  if c.isDigit then c.toNat - 48
  else if 'a' ≤ c && c ≤ 'f' then c.toNat - 87
  else c.toNat - 55

/-- Value of a run of hexadecimal digits. -/
def hexDigitsVal (cs : List Char) : Nat :=
  cs.foldl (fun a c => a * 16 + hexVal c) 0

/-- Unsigned decimal parse: nonempty run of digits or failure. -/
def parseDigits (cs : List Char) : Option Nat :=
  if cs.isEmpty then none
  else if cs.all Char.isDigit then some (digitsVal cs)
  else none

/-- Unsigned hexadecimal parse: nonempty run of hex digits or failure. -/
def parseHexDigits (cs : List Char) : Option Nat :=
  if cs.isEmpty then none
  else if cs.all isHexC then some (hexDigitsVal cs)
  else none

/-- Python `int(s)` on a stripped string: optional sign then decimal digits. -/
def pyIntDec (cs : List Char) : Option Int :=
  match cs with
  | [] => none
  | c :: rest =>
      if c = '+' then (parseDigits rest).map (fun v => (v : Int))
      else if c = '-' then (parseDigits rest).map (fun v => -(v : Int))
      else (parseDigits (c :: rest)).map (fun v => (v : Int))

/-- The optional hex marker `0x`/`0X` accepted by `int(s, 16)`. -/
def dropHex0x (cs : List Char) : List Char :=
  match cs with
  | c1 :: c2 :: rest =>
      if c1 = '0' ∧ (c2 = 'x' ∨ c2 = 'X') then rest else cs
  | _ => cs

/-- Python `int(s, 16)` on a stripped string: optional sign, optional `0x` prefix,
hexadecimal digits. -/
def pyIntHex (cs : List Char) : Option Int :=
  match cs with
  | [] => none
  | c :: rest =>
      if c = '+' then
        (parseHexDigits (dropHex0x rest)).map (fun v => (v : Int))
      else if c = '-' then
        (parseHexDigits (dropHex0x rest)).map (fun v => -(v : Int))
      else (parseHexDigits (dropHex0x (c :: rest))).map
        (fun v => (v : Int))

/-- The test `s.lower().startswith("0x")`. -/
def startsWith0x (cs : List Char) : Bool :=
  match cs with
  | c1 :: c2 :: _ => decide (c1 = '0' ∧ (c2 = 'x' ∨ c2 = 'X'))
  | _ => false

/-- The function `_to_int` (lines 56-70 of `group_s1ap_flows.py`): `None` for `None`,
strip, `None` for empty, try `int(s)`, on failure try `int(s, 16)` when the
lower-cased string starts with `0x`, and `None` on every failure. -/
def toInt (s : Option String) : Option Int :=
  match s with
  | none => none
  | some s =>
      let cs := pyStrip s.toList
      if cs.isEmpty then none
      else
        match pyIntDec cs with
        | some v => some v
        | none => if startsWith0x cs then pyIntHex cs else none

/-- The claim-side description of a decimal integer string
(optional sign, at least one digit). -/
def isDecString (cs : List Char) : Bool :=
  match cs with
  | [] => false
  | c :: rest =>
      if c = '+' ∨ c = '-' then !rest.isEmpty && rest.all Char.isDigit
      else (c :: rest).all Char.isDigit

/-- The integer denoted by a decimal integer string. -/
def decValue (cs : List Char) : Int :=
  match cs with
  | [] => 0
  | c :: rest =>
      if c = '+' then (digitsVal rest : Int)
      else if c = '-' then -(digitsVal rest : Int)
      else (digitsVal (c :: rest) : Int)

/-- The claim-side description of a `0x`-prefixed hexadecimal string. -/
def isHex0xString (cs : List Char) : Bool :=
  match cs with
  | c1 :: c2 :: rest =>
      decide (c1 = '0' ∧ (c2 = 'x' ∨ c2 = 'X')) &&
        (!rest.isEmpty && rest.all isHexC)
  | _ => false

/-- The integer denoted by a `0x`-prefixed hexadecimal string. -/
def hex0xValue (cs : List Char) : Int :=
  match cs with
  | _ :: _ :: rest => (hexDigitsVal rest : Int)
  | _ => 0

/-- The identifier-parsing policy in the claim's words: absent for `None`;
after stripping whitespace, the value of a decimal integer string or of a
`0x`-prefixed hexadecimal string; absent for everything else. -/
def specToInt (s : Option String) : Option Int :=
  match s with
  | none => none
  | some s =>
      let cs := pyStrip s.toList
      if isDecString cs then some (decValue cs)
      else if isHex0xString cs then some (hex0xValue cs)
      else none

lemma pyIntDec_eq (cs : List Char) :
    pyIntDec cs = if isDecString cs then some (decValue cs) else none := by
  match cs with
  | [] => simp [pyIntDec, parseDigits, isDecString]
  | c :: rest =>
      by_cases h1 : c = '+'
      · subst h1
        by_cases he : rest.isEmpty
        · simp [pyIntDec, parseDigits, isDecString, he]
        · by_cases ha : rest.all Char.isDigit <;>
            simp [pyIntDec, parseDigits, isDecString, decValue, he, ha]
      · by_cases h2 : c = '-'
        · subst h2
          by_cases he : rest.isEmpty
          · simp [pyIntDec, parseDigits, isDecString, he]
          · by_cases ha : rest.all Char.isDigit <;>
              simp [pyIntDec, parseDigits, isDecString, decValue, he, ha]
        · by_cases ha : (c :: rest).all Char.isDigit <;>
            simp [pyIntDec, parseDigits, isDecString, decValue, h1, h2, ha]

lemma pyIntHex_0x_eq {c1 c2 : Char} (rest : List Char)
    (h1 : c1 = '0') (h2 : c2 = 'x' ∨ c2 = 'X') :
    pyIntHex (c1 :: c2 :: rest) =
      if isHex0xString (c1 :: c2 :: rest) then
        some (hex0xValue (c1 :: c2 :: rest))
      else none := by
  subst h1
  have hne1 : ¬ ('0' : Char) = '+' := by decide
  have hne2 : ¬ ('0' : Char) = '-' := by decide
  by_cases he : rest.isEmpty
  · simp [pyIntHex, dropHex0x, parseHexDigits, isHex0xString,
      hne1, hne2, h2, he]
  · by_cases ha : rest.all isHexC <;>
      simp [pyIntHex, dropHex0x, parseHexDigits, isHex0xString,
        hex0xValue, hne1, hne2, h2, he, ha]

lemma not_startsWith0x_not_hex {cs : List Char}
    (h : startsWith0x cs = false) : isHex0xString cs = false := by
  cases cs with
  | nil => rfl
  | cons c1 rest1 =>
      cases rest1 with
      | nil => rfl
      | cons c2 rest =>
          simp only [startsWith0x, decide_eq_false_iff_not] at h
          simp [isHex0xString, h]

/-- C8. Defensive identifier parsing: `_to_int` (a total function, so it
never raises) agrees on every input with the claim's policy — absent for
`None`; after stripping surrounding whitespace, the integer value of a
decimal integer string or of a `0x`-prefixed hexadecimal string; absent for
empty and every other malformed string — and on the sample inputs behaves
accordingly. -/
theorem toInt_defensive :
    (∀ s : Option String, toInt s = specToInt s) ∧
    toInt none = none ∧
    toInt (some "") = none ∧
    toInt (some " 42 ") = some 42 ∧
    toInt (some "-7") = some (-7) ∧
    toInt (some "0x1A") = some 26 ∧
    toInt (some "12abc") = none ∧
    toInt (some "x10") = none := by
  refine ⟨?_, rfl, by decide, by decide, by decide, by decide, by decide,
    by decide⟩
  intro s
  match s with
  | none => rfl
  | some s =>
      show (if (pyStrip s.toList).isEmpty then none
        else match pyIntDec (pyStrip s.toList) with
          | some v => some v
          | none => if startsWith0x (pyStrip s.toList) then
              pyIntHex (pyStrip s.toList) else none) =
        (if isDecString (pyStrip s.toList) then
            some (decValue (pyStrip s.toList))
          else if isHex0xString (pyStrip s.toList) then
            some (hex0xValue (pyStrip s.toList))
          else none)
      generalize pyStrip s.toList = cs
      by_cases he : cs.isEmpty
      · have h1 : isDecString cs = false := by
          cases cs with
          | nil => rfl
          | cons c rest => simp at he
        have h2 : isHex0xString cs = false := by
          cases cs with
          | nil => rfl
          | cons c rest => simp at he
        simp [he, h1, h2]
      · rw [if_neg (by simp [he]), pyIntDec_eq]
        by_cases hd : isDecString cs = true
        · simp [hd]
        · simp only [Bool.not_eq_true] at hd
          simp only [hd, Bool.false_eq_true, if_false]
          by_cases hx : startsWith0x cs = true
          · have hshape : ∃ c1 c2 rest, cs = c1 :: c2 :: rest ∧ c1 = '0' ∧
                (c2 = 'x' ∨ c2 = 'X') := by
              cases cs with
              | nil => simp [startsWith0x] at hx
              | cons c1 rest1 =>
                  cases rest1 with
                  | nil => simp [startsWith0x] at hx
                  | cons c2 rest =>
                      simp only [startsWith0x, decide_eq_true_eq] at hx
                      exact ⟨c1, c2, rest, rfl, hx.1, hx.2⟩
            obtain ⟨c1, c2, rest, hcs, hc1, hc2⟩ := hshape
            subst hcs
            rw [if_pos hx, pyIntHex_0x_eq rest hc1 hc2]
          · simp only [Bool.not_eq_true] at hx
            simp [hx, not_startsWith0x_not_hex hx]

end S1AP

namespace S1AP

/-!
Output ordering. `group_s1ap_flows.py` line 300 sorts the persisted flows by
the key `(start_time or +inf, first frame or +inf)`; `filter_flows_by_time.py`
lines 377 and 396 keep the input order of the surviving flows and renumber
them 1..N.
-/

/-- Strict order on `Option ℚ` where `none` plays `float("inf")`. -/
def infLt (a b : Option ℚ) : Prop :=
  match a, b with
  | some x, some y => x < y
  | some _, none => True
  | none, _ => False

instance : ∀ a b, Decidable (infLt a b) := fun a b =>
  match a, b with
  | some x, some y => inferInstanceAs (Decidable (x < y))
  | some _, none => isTrue trivial
  | none, some _ => isFalse id
  | none, none => isFalse id

lemma infLt_trichotomy (a b : Option ℚ) : infLt a b ∨ a = b ∨ infLt b a := by
  match a, b with
  | some x, some y =>
      rcases lt_trichotomy x y with h | h | h
      · exact Or.inl h
      · exact Or.inr (Or.inl (by rw [h]))
      · exact Or.inr (Or.inr h)
  | some _, none => exact Or.inl trivial
  | none, some _ => exact Or.inr (Or.inr trivial)
  | none, none => exact Or.inr (Or.inl rfl)

lemma infLt_trans {a b c : Option ℚ} (h1 : infLt a b) (h2 : infLt b c) :
    infLt a c := by
  match a, b, c with
  | some x, some y, some z => exact lt_trans h1 h2
  | some x, some y, none => exact trivial
  | some x, none, _ => cases h2
  | none, _, _ => cases h1

/-- The first component of the persisted sort key:
`x["start_time"] if x["start_time"] is not None else float("inf")`. -/
def keyStart (f : Flow) : Option ℚ := f.start_time

/-- The second component of the persisted sort key:
`x["frames"][0] if x["frames"] else float("inf")`. -/
def keyFrame (f : Flow) : Option ℚ := f.frames.head?.map (fun n => (n : ℚ))

/-- The sort order of line 300 of `group_s1ap_flows.py`: lexicographic on
`(keyStart, keyFrame)` with missing values largest. -/
def flowLe (a b : Flow) : Prop :=
  infLt (keyStart a) (keyStart b) ∨
    (keyStart a = keyStart b ∧
      (infLt (keyFrame a) (keyFrame b) ∨ keyFrame a = keyFrame b))

instance : DecidableRel flowLe := fun a b => by
  unfold flowLe
  infer_instance

instance : IsTotal Flow flowLe := by
  constructor
  intro a b
  rcases infLt_trichotomy (keyStart a) (keyStart b) with h | h | h
  · exact Or.inl (Or.inl h)
  · rcases infLt_trichotomy (keyFrame a) (keyFrame b) with h2 | h2 | h2
    · exact Or.inl (Or.inr ⟨h, Or.inl h2⟩)
    · exact Or.inl (Or.inr ⟨h, Or.inr h2⟩)
    · exact Or.inr (Or.inr ⟨h.symm, Or.inl h2⟩)
  · exact Or.inr (Or.inl h)

instance : IsTrans Flow flowLe := by
  constructor
  intro a b c hab hbc
  rcases hab with hab | ⟨hab1, hab2⟩
  · rcases hbc with hbc | ⟨hbc1, hbc2⟩
    · exact Or.inl (infLt_trans hab hbc)
    · exact Or.inl (hbc1 ▸ hab)
  · rcases hbc with hbc | ⟨hbc1, hbc2⟩
    · exact Or.inl (hab1 ▸ hbc)
    · refine Or.inr ⟨hab1.trans hbc1, ?_⟩
      rcases hab2 with hab2 | hab2
      · rcases hbc2 with hbc2 | hbc2
        · exact Or.inl (infLt_trans hab2 hbc2)
        · exact Or.inl (hbc2 ▸ hab2)
      · rcases hbc2 with hbc2 | hbc2
        · exact Or.inl (hab2 ▸ hbc2)
        · exact Or.inr (hab2.trans hbc2)

/-- The `result.sort(key=...)` of line 300 of `group_s1ap_flows.py`
(a stable sort by the lexicographic key). -/
def sortPersisted (flows : List Flow) : List Flow :=
  List.insertionSort flowLe flows

/-- Python `enumerate(filtered, start=1)`. -/
def numberFrom {α : Type} : Nat → List α → List (Nat × α)
  | _, [] => []
  | k, x :: xs => (k, x) :: numberFrom (k + 1) xs

/-- The filter stage of `main` in `filter_flows_by_time.py` (lines 377 and
396): keep the flows passing `keep`, in input order, and number them from
1. -/
def filterPipeline (mode : FilterMode) (start endT : ℚ)
    (flows : List Flow) : List (Nat × Flow) :=
  numberFrom 1 (flows.filter (keep mode start endT))

lemma numberFrom_map_snd {α : Type} :
    ∀ (k : Nat) (l : List α), (numberFrom k l).map Prod.snd = l := by
  intro k l
  induction l generalizing k with
  | nil => rfl
  | cons x xs ih => simp [numberFrom, ih]

lemma numberFrom_map_fst {α : Type} :
    ∀ (k : Nat) (l : List α),
      (numberFrom k l).map Prod.fst = List.range' k l.length := by
  intro k l
  induction l generalizing k with
  | nil => rfl
  | cons x xs ih => simp [numberFrom, ih, List.range'_succ]

/-- Counterexample to C6 as stated: the time-window filter does not reorder;
from the unsorted input [start 10, start 5] (both kept under `overlap` of
[0, 100]) the output flow sequence is not ascending by start time. -/
theorem filterPipeline_not_sorted_counterexample :
    ¬ List.Sorted flowLe
      ((filterPipeline .overlap 0 100
        [⟨some 1, some 1, some 10, some 11, [1]⟩,
         ⟨some 2, some 2, some 5, some 6, [2]⟩]).map Prod.snd) := by
  decide

/-- C6 amended. The persisted flow set is sorted ascending by
(start time, smallest member frame number, missing values last); the
time-window filter preserves the relative input order of the kept flows —
hence its output is ascending whenever its input (the persisted set) is —
and renumbers them with consecutive 1-based indices 1..N. -/
theorem flow_output_ordering :
    (∀ result : List Flow, List.Sorted flowLe (sortPersisted result)) ∧
    (∀ (mode : FilterMode) (s e : ℚ) (flows : List Flow),
      ((filterPipeline mode s e flows).map Prod.snd).Sublist flows ∧
      (List.Sorted flowLe flows →
        List.Sorted flowLe ((filterPipeline mode s e flows).map Prod.snd)) ∧
      (filterPipeline mode s e flows).map Prod.fst =
        List.range' 1 (flows.filter (keep mode s e)).length) := by
  constructor
  · intro result
    exact List.sorted_insertionSort flowLe result
  · intro mode s e flows
    have hsnd : (filterPipeline mode s e flows).map Prod.snd =
        flows.filter (keep mode s e) := numberFrom_map_snd _ _
    refine ⟨?_, ?_, ?_⟩
    · rw [hsnd]
      exact List.filter_sublist flows
    · intro hsorted
      rw [hsnd]
      exact List.Pairwise.sublist (List.filter_sublist flows) hsorted
    · exact numberFrom_map_fst _ _

/-- Witness for C6 amended: on a sorted 2-flow input the pipeline keeps the
order and numbers the output 1, 2. -/
theorem flow_output_ordering_witness :
    List.Sorted flowLe
      [(⟨some 2, some 2, some 5, some 6, [2]⟩ : Flow),
       ⟨some 1, some 1, some 10, some 11, [1]⟩] ∧
    List.Sorted flowLe ((filterPipeline .overlap 0 100
      [⟨some 2, some 2, some 5, some 6, [2]⟩,
       ⟨some 1, some 1, some 10, some 11, [1]⟩]).map Prod.snd) ∧
    (filterPipeline .overlap 0 100
      [(⟨some 2, some 2, some 5, some 6, [2]⟩ : Flow),
       ⟨some 1, some 1, some 10, some 11, [1]⟩]).map Prod.fst =
      List.range' 1 2 :=
  ⟨by decide,
    ((flow_output_ordering.2 .overlap 0 100
      [⟨some 2, some 2, some 5, some 6, [2]⟩,
       ⟨some 1, some 1, some 10, some 11, [1]⟩]).2.1 (by decide)),
    (flow_output_ordering.2 .overlap 0 100
      [⟨some 2, some 2, some 5, some 6, [2]⟩,
       ⟨some 1, some 1, some 10, some 11, [1]⟩]).2.2⟩

/-!
CLI exit codes. Both `main` functions are modelled as functions of the
environment facts they branch on, returning the `return` value (exit code)
together with whether a write failure was reported; an uncaught exception
(the `RuntimeError` of a failing mapping-building `tshark` call) is an
`Except.error`.
-/

/-- The environment facts `main` of `group_s1ap_flows.py` branches on. -/
structure GroupEnv where
  csvExists : Bool
  pcapExists : Bool
  tsharkOnPath : Bool
  idMapOk : Bool
  writeOk : Bool
deriving DecidableEq

/-- Exit code plus whether a failed result-file write was reported. -/
structure ExitResult where
  code : Nat
  writeErrorReported : Bool
deriving DecidableEq

/-- The function `main` of `group_s1ap_flows.py` (lines 236-317): missing CSV, missing
pcap or missing tshark exit 2; a failing tshark invocation raises; a failed
JSON write is reported on stderr but the function still returns 0. -/
def groupMain (env : GroupEnv) : Except String ExitResult :=
  if !env.csvExists then .ok ⟨2, false⟩
  else if !env.pcapExists then .ok ⟨2, false⟩
  else if !env.tsharkOnPath then .ok ⟨2, false⟩
  else if !env.idMapOk then .error "tshark failed building ID map"
  else if env.writeOk then .ok ⟨0, false⟩
  else .ok ⟨0, true⟩

/-- The environment facts `main` of `filter_flows_by_time.py` branches on. -/
structure FilterEnv where
  flowsExists : Bool
  pcapExists : Bool
  jsonParses : Bool
  jsonIsList : Bool
  tsharkOnPath : Bool
  writeOk : Bool
deriving DecidableEq

/-- The function `main` of `filter_flows_by_time.py` (lines 297-446): missing flows file,
missing pcap, `start > end`, bad JSON, non-list JSON, or missing tshark (for
the summary stage) exit 2; a failed write of the result file is reported and
exits 1; otherwise 0. -/
def filterMain (env : FilterEnv) (start endT : ℚ) : ExitResult :=
  if !env.flowsExists then ⟨2, false⟩
  else if !env.pcapExists then ⟨2, false⟩
  else if start > endT then ⟨2, false⟩
  else if !env.jsonParses then ⟨2, false⟩
  else if !env.jsonIsList then ⟨2, false⟩
  else if !env.tsharkOnPath then ⟨2, false⟩
  else if env.writeOk then ⟨0, false⟩
  else ⟨1, true⟩

/-- Counterexample to C7 as stated: in the flow-building subcommand a failed
result-file write is reported but the process still exits 0, not 1. -/
theorem groupMain_write_failure_counterexample :
    groupMain ⟨true, true, true, true, false⟩ =
      .ok ⟨0, true⟩ ∧ (0 : Nat) ≠ 1 :=
  ⟨rfl, by decide⟩

/-- C7 amended. Invalid input (missing input file, start > end, malformed
flow-set JSON, missing external tool) exits 2 for both subcommands, with no
write attempted; success exits 0. On a result-file write failure the filter
subcommand reports it and exits 1, but the flow-building subcommand reports
it and still exits 0. -/
theorem exit_code_contract (genv : GroupEnv) (fenv : FilterEnv)
    (start endT : ℚ) :
    ((!genv.csvExists || !genv.pcapExists || !genv.tsharkOnPath) = true →
      groupMain genv = .ok ⟨2, false⟩) ∧
    (genv.csvExists = true → genv.pcapExists = true →
      genv.tsharkOnPath = true → genv.idMapOk = true →
      groupMain genv = .ok ⟨if genv.writeOk then 0 else 0,
        !genv.writeOk⟩) ∧
    ((!fenv.flowsExists || !fenv.pcapExists || !fenv.jsonParses ||
        !fenv.jsonIsList || !fenv.tsharkOnPath) = true ∨ start > endT →
      filterMain fenv start endT = ⟨2, false⟩) ∧
    (fenv.flowsExists = true → fenv.pcapExists = true → start ≤ endT →
      fenv.jsonParses = true → fenv.jsonIsList = true →
      fenv.tsharkOnPath = true →
      filterMain fenv start endT =
        ⟨if fenv.writeOk then 0 else 1, !fenv.writeOk⟩) := by
  obtain ⟨c, p, t, i, w⟩ := genv
  obtain ⟨fl, fp, jp, jl, ts, fw⟩ := fenv
  refine ⟨?_, ?_, ?_, ?_⟩
  · intro h
    cases c <;> cases p <;> cases t <;> simp_all [groupMain]
  · intro hc hp ht hi
    subst hc; subst hp; subst ht; subst hi
    cases w <;> simp [groupMain]
  · intro h
    cases fl <;> cases fp <;> cases jp <;> cases jl <;> cases ts <;>
      rcases h with h | h <;> simp_all [filterMain]
  · intro h1 h2 h3 h4 h5 h6
    subst h1; subst h2; subst h4; subst h5; subst h6
    cases fw <;> simp [filterMain, not_lt.mpr h3]

/-!
Summary enrichment chunking (`tshark_csv_for_frames`, lines 193-294 of
`filter_flows_by_time.py`). The external decoder invocation is abstracted as
a function from a frame chunk to `none` (a failed `tshark` call) or the list
of stdout lines. `len(str(int(n)))` for a natural number is its decimal
digit count, computed with structural fuel.
-/

/-- Decimal digit count with explicit fuel (`strLenAux n n` is exact for
every `n` because a number needs fewer digits than its own value bounds). -/
def strLenAux : Nat → Nat → Nat
  | 0, _ => 1
  | fuel + 1, n => if n < 10 then 1 else strLenAux fuel (n / 10) + 1

/-- Python `len(str(int(n)))` for a natural frame number. -/
def strLen (n : Nat) : Nat := strLenAux n n

/-- The `current_len` accounting of the chunking loop: each frame
contributes `len(str(n)) + 1` characters. -/
def chunkSize (c : List Nat) : Nat :=
  (c.map (fun n => strLen n + 1)).sum

/-- The chunking loop of `tshark_csv_for_frames` (lines 282-292): flush the
accumulated chunk when the next frame would push the running length past
`max_chars = 6000`, and emit the trailing chunk. -/
def chunksGo : List Nat → List Nat → Nat → List (List Nat)
  | [], chunk, _ => if chunk.isEmpty then [] else [chunk]
  | n :: rest, chunk, len =>
      if 6000 < len + strLen n + 2 ∧ chunk ≠ [] then
        chunk :: chunksGo rest [n] (strLen n + 1)
      else
        chunksGo rest (chunk ++ [n]) (len + strLen n + 1)

/-- All chunks for a frame list. -/
def chunksOf (frames : List Nat) : List (List Nat) :=
  chunksGo frames [] 0

/-- The external decoder: a chunk of frame numbers to `none` (failed tshark
invocation, reported and skipped) or its stdout lines. -/
abbrev Decoder := List Nat → Option (List String)

/-- The closure `run_chunk` (lines 230-280): on failure or empty output keep the
accumulator; otherwise capture the first line as header if none is held yet
and append all lines but the first to the data accumulator. -/
def procChunk (decoder : Decoder) (acc : Option String × List String)
    (c : List Nat) : Option String × List String :=
  match decoder c with
  | none => acc
  | some [] => acc
  | some (l :: ls) =>
      match acc.1 with
      | none => (some l, acc.2 ++ ls)
      | some h => (some h, acc.2 ++ ls)

/-- The function `tshark_csv_for_frames` (lines 193-294): `(None, [])` for no frames,
otherwise run every chunk in order against the decoder. -/
def tsharkCsvForFrames (decoder : Decoder) (frames : List Nat) :
    Option String × List String :=
  match frames with
  | [] => (none, [])
  | _ => (chunksOf frames).foldl (procChunk decoder) (none, [])

/-- The successful, non-empty per-chunk outputs, in chunk order. -/
def goodOuts (decoder : Decoder) (cs : List (List Nat)) :
    List (List String) :=
  (cs.filterMap decoder).filter (fun ls => !ls.isEmpty)

lemma strLenAux_pow10 : ∀ (k f : Nat), 10 ^ k ≤ f →
    strLenAux f (10 ^ k) = k + 1 := by
  intro k
  induction k with
  | zero =>
      intro f hf
      rw [pow_zero] at hf ⊢
      cases f with
      | zero => omega
      | succ g => simp [strLenAux]
  | succ k ih =>
      intro f hf
      have h1 : 1 ≤ 10 ^ (k + 1) := Nat.one_le_pow _ _ (by norm_num)
      cases f with
      | zero => omega
      | succ g =>
          have h10 : ¬ 10 ^ (k + 1) < 10 := by
            have : 10 ^ 1 ≤ 10 ^ (k + 1) :=
              Nat.pow_le_pow_right (by norm_num) (by omega)
            simp only [pow_one] at this
            omega
          have hdiv : 10 ^ (k + 1) / 10 = 10 ^ k := by
            rw [pow_succ]
            exact Nat.mul_div_cancel _ (by norm_num)
          have hlt : 10 ^ k < 10 ^ (k + 1) :=
            Nat.pow_lt_pow_right (by norm_num) (by omega)
          have hle : 10 ^ k ≤ g := by omega
          show (if 10 ^ (k + 1) < 10 then 1
            else strLenAux g (10 ^ (k + 1) / 10) + 1) = k + 1 + 1
          rw [if_neg h10, hdiv, ih g hle]

lemma strLen_pow10 (k : Nat) : strLen (10 ^ k) = k + 1 :=
  strLenAux_pow10 k (10 ^ k) le_rfl

lemma chunkSize_append (c : List Nat) (n : Nat) :
    chunkSize (c ++ [n]) = chunkSize c + (strLen n + 1) := by
  simp [chunkSize]

lemma chunksGo_spec : ∀ (rest chunk : List Nat) (len : Nat),
    chunkSize chunk = len → (chunk = [] → len = 0) →
    (2 ≤ chunk.length → len ≤ 6000) →
    (chunksGo rest chunk len).join = chunk ++ rest ∧
    (∀ c ∈ chunksGo rest chunk len, c ≠ []) ∧
    (∀ c ∈ chunksGo rest chunk len, 2 ≤ c.length → chunkSize c ≤ 6000) := by
  intro rest
  induction rest with
  | nil =>
      intro chunk len hsize hemp hbud
      by_cases hch : chunk.isEmpty
      · have : chunk = [] := by simpa using hch
        subst this
        simp [chunksGo]
      · have : ¬ chunk = [] := by simpa using hch
        rw [show chunksGo [] chunk len = [chunk] by simp [chunksGo, hch]]
        refine ⟨by simp, by simp [this], ?_⟩
        intro c hc
        simp at hc
        subst hc
        rw [hsize]
        exact hbud
  | cons n rest ih =>
      intro chunk len hsize hemp hbud
      by_cases hcond : 6000 < len + strLen n + 2 ∧ chunk ≠ []
      · rw [show chunksGo (n :: rest) chunk len =
            chunk :: chunksGo rest [n] (strLen n + 1) by
          simp [chunksGo, hcond]]
        have hrec := ih [n] (strLen n + 1) (by simp [chunkSize])
          (by simp) (by simp)
        refine ⟨?_, ?_, ?_⟩
        · have hj : (chunksGo rest [n] (strLen n + 1)).join = [n] ++ rest :=
            hrec.1
          simp [hj]
        · intro c hc
          rcases List.mem_cons.mp hc with hc | hc
          · subst hc
            exact hcond.2
          · exact hrec.2.1 c hc
        · intro c hc hlen
          rcases List.mem_cons.mp hc with hc | hc
          · subst hc
            rw [hsize]
            exact hbud hlen
          · exact hrec.2.2 c hc hlen
      · rw [show chunksGo (n :: rest) chunk len =
            chunksGo rest (chunk ++ [n]) (len + strLen n + 1) by
          simp only [chunksGo]
          rw [if_neg hcond]]
        have hbud' : 2 ≤ (chunk ++ [n]).length → len + strLen n + 1 ≤ 6000 := by
          intro hlen
          by_cases hch : chunk = []
          · subst hch
            simp at hlen
          · have : ¬ 6000 < len + strLen n + 2 := fun hlt => hcond ⟨hlt, hch⟩
            omega
        have hrec := ih (chunk ++ [n]) (len + strLen n + 1)
          (by rw [chunkSize_append, hsize]; omega) (by simp) hbud'
        refine ⟨?_, hrec.2.1, hrec.2.2⟩
        rw [hrec.1]
        simp

lemma foldl_procChunk (decoder : Decoder) :
    ∀ (cs : List (List Nat)) (h : Option String) (acc : List String),
      cs.foldl (procChunk decoder) (h, acc) =
        (h.or ((goodOuts decoder cs).head?.bind (fun ls => ls.head?)),
         acc ++ ((goodOuts decoder cs).map (fun ls => ls.tail)).join) := by
  intro cs
  induction cs with
  | nil =>
      intro h acc
      simp [goodOuts]
  | cons c cs ih =>
      intro h acc
      show cs.foldl (procChunk decoder) (procChunk decoder (h, acc) c) = _
      cases hd : decoder c with
      | none =>
          rw [show procChunk decoder (h, acc) c = (h, acc) by
            simp [procChunk, hd]]
          rw [ih h acc]
          simp [goodOuts, List.filterMap_cons, hd]
      | some ls =>
          cases ls with
          | nil =>
              rw [show procChunk decoder (h, acc) c = (h, acc) by
                simp [procChunk, hd]]
              rw [ih h acc]
              simp [goodOuts, List.filterMap_cons, hd]
          | cons l ls =>
              have hgood : goodOuts decoder (c :: cs) =
                  (l :: ls) :: goodOuts decoder cs := by
                simp [goodOuts, List.filterMap_cons, hd]
              cases h with
              | none =>
                  rw [show procChunk decoder (none, acc) c =
                      (some l, acc ++ ls) by simp [procChunk, hd]]
                  rw [ih (some l) (acc ++ ls)]
                  rw [hgood]
                  simp
              | some hh =>
                  rw [show procChunk decoder (some hh, acc) c =
                      (some hh, acc ++ ls) by simp [procChunk, hd]]
                  rw [ih (some hh) (acc ++ ls)]
                  rw [hgood]
                  simp

/-- Counterexample to C9 as stated: a single frame whose decimal rendering
alone exceeds the 6000-character budget forms its own over-budget chunk, so
not every chunk is under the per-request size budget. -/
theorem tshark_chunk_budget_counterexample :
    [10 ^ 5999] ∈ chunksOf [10 ^ 5999] ∧
    ¬ chunkSize [10 ^ 5999] ≤ 6000 := by
  have hsize : chunkSize [10 ^ 5999] = 6001 := by
    simp [chunkSize, strLen_pow10]
  constructor
  · show [10 ^ 5999] ∈ chunksGo [10 ^ 5999] [] 0
    simp [chunksGo]
  · rw [hsize]
    norm_num

/-- C9 amended. The enricher splits the member-frame list into consecutive
non-empty chunks that cover it in order; every chunk holding at least two
frames is within the 6000-character budget (a single oversized frame number
is necessarily its own over-budget chunk); the per-chunk decoder outputs
are concatenated preserving order, the header is the first line of the
first chunk that produces output and is dropped from every chunk's data,
and a failing chunk only omits its own rows without aborting the rest. -/
theorem tshark_chunking (decoder : Decoder) (frames : List Nat) :
    (chunksOf frames).join = frames ∧
    (∀ c ∈ chunksOf frames, c ≠ []) ∧
    (∀ c ∈ chunksOf frames, 2 ≤ c.length → chunkSize c ≤ 6000) ∧
    tsharkCsvForFrames decoder frames =
      ((goodOuts decoder (chunksOf frames)).head?.bind (fun ls => ls.head?),
       ((goodOuts decoder (chunksOf frames)).map (fun ls => ls.tail)).join) := by
  have hspec := chunksGo_spec frames [] 0 (by simp [chunkSize]) (by simp)
    (by simp)
  refine ⟨by simpa using hspec.1, hspec.2.1, hspec.2.2, ?_⟩
  cases frames with
  | nil => simp [tsharkCsvForFrames, chunksOf, chunksGo, goodOuts]
  | cons n rest =>
      show (chunksOf (n :: rest)).foldl (procChunk decoder) (none, []) = _
      rw [foldl_procChunk decoder (chunksOf (n :: rest)) none []]
      simp

/-- Witness for C9 amended: the two-frame list [1, 2] forms the single
chunk [1, 2], which covers the list and is within the budget. -/
theorem tshark_chunking_witness :
    (chunksOf [1, 2]).join = [1, 2] ∧ chunkSize [1, 2] ≤ 6000 :=
  ⟨(tshark_chunking (fun _ => none) [1, 2]).1,
    (tshark_chunking (fun _ => none) [1, 2]).2.2.1 [1, 2] (by decide)
      (by decide)⟩

/-- Witness for C7 amended: a present-inputs filter run whose write fails
exits 1 with the failure reported; the matching group run exits 0. -/
theorem exit_code_contract_witness :
    filterMain ⟨true, true, true, true, true, false⟩ 0 1 = ⟨1, true⟩ ∧
    groupMain ⟨true, true, true, true, false⟩ = .ok ⟨0, true⟩ :=
  ⟨by
      have h := (exit_code_contract ⟨true, true, true, true, false⟩
        ⟨true, true, true, true, true, false⟩ 0 1).2.2.2 rfl rfl
        (by norm_num) rfl rfl rfl
      simpa using h,
    by
      have h := (exit_code_contract ⟨true, true, true, true, false⟩
        ⟨true, true, true, true, true, false⟩ 0 1).2.1 rfl rfl rfl rfl
      simpa using h⟩

end S1AP
